import Mathlib

/-!
Verification of the line-oriented forward-error-correcting base-32
encoder/decoder and of the directory utilities of this repository.

The FEC encoder lives in the repository as `encode_for_print.py` (not among
the provided source files); the decoder is specified but not implemented.
Both are therefore modelled from the specification.  Directory utilities
(`dirsize.py`, `temp.py`) are modelled from their sources.

Bytes are modelled as natural numbers below 256, payload text as `List Char`,
and machine-level CRC-32 arithmetic as `Nat` arithmetic (all values involved
stay below `2 ^ 32`).
-/

set_option autoImplicit false

namespace FEC

/-! ### Bit-level primitives -/

/-- The `k` low bits of `n`, most significant first. -/
def natToBits : Nat → Nat → List Bool
  | 0, _ => []
  | k + 1, n => natToBits k (n / 2) ++ [decide (n % 2 = 1)]

/-- Interpret a bit list (most significant first) as a natural number. -/
def bitsToNat (l : List Bool) : Nat :=
  l.foldl (fun a b => 2 * a + b.toNat) 0

/-- Split a list into consecutive pieces of `k` elements (the final piece may
be shorter).  `fuel` bounds the recursion; callers pass the list length. -/
def chunksExact {α : Type} (k : Nat) : Nat → List α → List (List α)
  | 0, _ => []
  | _, [] => []
  | fuel + 1, l => l.take k :: chunksExact k fuel (l.drop k)

/-- Split a list into chunks of `k` elements. -/
def chunkList {α : Type} (k : Nat) (l : List α) : List (List α) :=
  chunksExact k l.length l

/-- The bits of a byte string, each byte big-endian. -/
def bytesToBits (bs : List Nat) : List Bool :=
  (bs.map (natToBits 8)).flatten

/-- Number of zero bits appended so that a bit string of length `m` becomes a
multiple of five (base-32 symbol size). -/
def pad5len (m : Nat) : Nat := (5 - m % 5) % 5

/-! ### Base-32 (RFC 4648) -/

/-- The RFC 4648 base-32 alphabet. -/
def b32alphabet : List Char :=
  ['A', 'B', 'C', 'D', 'E', 'F', 'G', 'H', 'I', 'J', 'K', 'L', 'M',
   'N', 'O', 'P', 'Q', 'R', 'S', 'T', 'U', 'V', 'W', 'X', 'Y', 'Z',
   '2', '3', '4', '5', '6', '7']

/-- Character of a 5-bit symbol value. -/
def symToChar (s : Nat) : Char := b32alphabet.getD s 'A'

/-- 5-bit symbol value of an alphabet character. -/
def charToSym (c : Char) : Nat := b32alphabet.indexOf c

/-- Modelled from the spec: base-32 encoding (`encode_for_print.py` is not
among the provided sources).  The byte string is laid out big-endian bit by
bit, zero-padded to a multiple of five bits, and each 5-bit group becomes one
alphabet character; the RFC 4648 `=` padding is stripped. -/
def b32encodeChars (bs : List Nat) : List Char :=
  ((chunkList 5 (bytesToBits bs ++ List.replicate (pad5len (8 * bs.length)) false)).map
    bitsToNat).map symToChar

/-- Modelled from the spec: base-32 decoding of unpadded text, as performed by
re-adding `=` padding and decoding (sub-byte trailing bits are dropped, so a
text of `m` characters yields `5 * m / 8` bytes). -/
def b32decodeChars (cs : List Char) : List Nat :=
  let bits := ((cs.map charToSym).map (natToBits 5)).flatten
  (chunkList 8 (bits.take (8 * (5 * cs.length / 8)))).map bitsToNat

/-! ### Text helpers: trimming, padding, CRC-32, decimal and hex rendering -/

/-- Remove trailing space characters. -/
def trimRight (l : List Char) : List Char :=
  (l.reverse.dropWhile (fun c => c == ' ')).reverse

/-- Left-justify: pad on the right with spaces to at least `w` characters. -/
def padRight (w : Nat) (l : List Char) : List Char :=
  l ++ List.replicate (w - l.length) ' '

/-- The code points of a character list (ASCII bytes for ASCII text). -/
def asciiBytes (l : List Char) : List Nat := l.map Char.toNat

/-- One shift-and-conditionally-xor round of the reflected CRC-32
computation (polynomial `0xEDB88320`). -/
def crcStep (c : Nat) : Nat :=
  if c % 2 = 1 then (c / 2) ^^^ 3988292384 else c / 2

/-- Fold one byte into a CRC-32 accumulator. -/
def crcByte (c b : Nat) : Nat := Nat.repeat crcStep 8 (c ^^^ b)

/-- CRC-32 of a byte string (zlib semantics: initial and final value
`0xFFFFFFFF`). -/
def crc32 (bytes : List Nat) : Nat :=
  (bytes.foldl crcByte 4294967295) ^^^ 4294967295

/-- CRC-32 of a character list's code points. -/
def crcOfChars (l : List Char) : Nat := crc32 (asciiBytes l)

/-- Lowercase hexadecimal digit of a value below sixteen. -/
def hexChar (k : Nat) : Char :=
  match k with
  | 0 => '0' | 1 => '1' | 2 => '2' | 3 => '3' | 4 => '4'
  | 5 => '5' | 6 => '6' | 7 => '7' | 8 => '8' | 9 => '9'
  | 10 => 'a' | 11 => 'b' | 12 => 'c' | 13 => 'd' | 14 => 'e'
  | _ => 'f'

/-- Eight lowercase hex digits of a 32-bit value, most significant first. -/
def toHex8 (n : Nat) : List Char :=
  [hexChar (n / 268435456 % 16), hexChar (n / 16777216 % 16),
   hexChar (n / 1048576 % 16), hexChar (n / 65536 % 16),
   hexChar (n / 4096 % 16), hexChar (n / 256 % 16),
   hexChar (n / 16 % 16), hexChar (n % 16)]

/-- Decimal digit character of a value below ten. -/
def digitChar (k : Nat) : Char :=
  match k with
  | 0 => '0' | 1 => '1' | 2 => '2' | 3 => '3' | 4 => '4'
  | 5 => '5' | 6 => '6' | 7 => '7' | 8 => '8' | _ => '9'

/-- Decimal digits of `n`, most significant first; `fuel` bounds the
recursion (callers pass `n` itself). -/
def natDigitsAux : Nat → Nat → List Char
  | 0, n => [digitChar (n % 10)]
  | fuel + 1, n =>
    if n < 10 then [digitChar n] else natDigitsAux fuel (n / 10) ++ [digitChar (n % 10)]

/-- Decimal digits of `n`, most significant first. -/
def natDigits (n : Nat) : List Char := natDigitsAux n n

/-- Zero-pad a digit string on the left to at least `k` characters. -/
def padZeros (k : Nat) (ds : List Char) : List Char :=
  List.replicate (k - ds.length) '0' ++ ds

/-- `n` zero-padded to (at least) six decimal digits, as in `%06d`. -/
def pad6 (n : Nat) : List Char := padZeros 6 (natDigits n)

/-- `n` zero-padded to (at least) five decimal digits, as in `%05d`. -/
def pad5 (n : Nat) : List Char := padZeros 5 (natDigits n)

/-- Numeric value of a decimal digit character. -/
def digitVal (c : Char) : Nat := c.toNat - 48

/-- Interpret a decimal digit string, most significant first. -/
def interpDigits (ds : List Char) : Nat :=
  ds.foldl (fun a c => 10 * a + digitVal c) 0

/-- Numeric value of a lowercase hexadecimal digit character. -/
def hexVal (c : Char) : Nat :=
  if c.isDigit then c.toNat - 48 else c.toNat - 87

/-- Interpret a lowercase hexadecimal digit string, most significant first. -/
def interpHex (ds : List Char) : Nat :=
  ds.foldl (fun a c => 16 * a + hexVal c) 0

/-- Recognize a lowercase hexadecimal digit. -/
def isLowerHex (c : Char) : Bool :=
  c.isDigit || (97 ≤ c.toNat && c.toNat ≤ 102)

/-! ### XOR parity over ragged byte strings -/

/-- Byte-wise XOR; the shorter operand is implicitly zero-padded on the
right to the longer operand's length. -/
def xorBytes : List Nat → List Nat → List Nat
  | [], ys => ys
  | x :: xs, [] => x :: xs
  | x :: xs, y :: ys => (x ^^^ y) :: xorBytes xs ys

/-- XOR of a collection of byte strings. -/
def xorAll (ls : List (List Nat)) : List Nat := ls.foldr xorBytes []

/-- Modelled from the spec: the parity bytes of a group are the XOR of the
standalone base-32 decodings of its chunks, shorter operands zero-padded. -/
def parityBytesOf (chunks : List (List Char)) : List Nat :=
  xorAll (chunks.map b32decodeChars)

/-- The parity payload text of a group. -/
def parityChunk (chunks : List (List Char)) : List Char :=
  b32encodeChars (parityBytesOf chunks)

/-! ### Encoder -/

/-- Modelled from the spec: a data line: 1-based global chunk index
zero-padded to six digits, a space, the chunk left-justified to `w`
characters, a space, and the CRC-32 of the chunk as eight lowercase hex
digits. -/
def mkDataLine (w idx : Nat) (chunk : List Char) : List Char :=
  pad6 idx ++ ' ' :: (padRight w chunk ++ ' ' :: toHex8 (crcOfChars chunk))

/-- Modelled from the spec: a parity line: `P` followed by the zero-padded
five-digit group index, a space, the parity text left-justified to `w`
characters, a space, and its CRC-32 as eight lowercase hex digits. -/
def mkParityLine (w gIdx : Nat) (chunks : List (List Char)) : List Char :=
  'P' :: pad5 gIdx ++ ' ' ::
    (padRight w (parityChunk chunks) ++ ' ' :: toHex8 (crcOfChars (parityChunk chunks)))

/-- The data lines of a group whose first chunk has 0-based global index
`cIdx`. -/
def dataLines (w : Nat) : Nat → List (List Char) → List (List Char)
  | _, [] => []
  | cIdx, c :: rest => mkDataLine w (cIdx + 1) c :: dataLines w (cIdx + 1) rest

/-- All lines of one group: its data lines, then its one parity line. -/
def encGroup (w gIdx cIdx : Nat) (chunks : List (List Char)) : List (List Char) :=
  dataLines w cIdx chunks ++ [mkParityLine w gIdx chunks]

/-- The lines of a sequence of groups, threading the group index and the
global chunk index. -/
def encGroups (w : Nat) : Nat → Nat → List (List (List Char)) → List (List Char)
  | _, _, [] => []
  | gIdx, cIdx, grp :: rest =>
    encGroup w gIdx cIdx grp ++ encGroups w (gIdx + 1) (cIdx + grp.length) rest

/-- The per-group line blocks of a sequence of groups (same content as
`encGroups`, kept as one block per group). -/
def encPieces (w : Nat) : Nat → Nat → List (List (List Char)) → List (List (List Char))
  | _, _, [] => []
  | gIdx, cIdx, grp :: rest =>
    encGroup w gIdx cIdx grp :: encPieces w (gIdx + 1) (cIdx + grp.length) rest

/-- The base-32 text of the input split into chunks of `width` characters. -/
def streamChunks (b : List Nat) (width : Nat) : List (List Char) :=
  chunkList width (b32encodeChars b)

/-- The chunks partitioned into groups of `group_size`. -/
def streamGroups (b : List Nat) (width group_size : Nat) : List (List (List Char)) :=
  chunkList group_size (streamChunks b width)

/-- Modelled from the spec: `encode(raw_bytes, width, group_size)`: base-32
encode, chunk to `width` characters, group by `group_size`, emit each
group's checksummed data lines followed by its parity line. -/
def encode (b : List Nat) (width group_size : Nat) : List (List Char) :=
  encGroups width 0 0 (streamGroups b width group_size)

/-! ### Decoder -/

/-- Decoder failures.  `FormatError`: malformed or out-of-sequence lines.
`CorruptionError g`: group `g` has unrecoverable damage. -/
inductive DecErr where
  | FormatError : DecErr
  | CorruptionError : Nat → DecErr
deriving DecidableEq

/-- Result of a decoding stage. -/
inductive DRes (α : Type) where
  | ok : α → DRes α
  | error : DecErr → DRes α
deriving DecidableEq

/-- Parse and validate one data line against its expected 1-based global
index: returns the trimmed payload and whether the declared checksum
matches the recomputed CRC-32. -/
def checkDataLine (w idx : Nat) (l : List Char) : Option (List Char × Bool) :=
  let tag := l.takeWhile (fun c => c != ' ')
  let rest := l.drop (tag.length + 1)
  if tag.all Char.isDigit && !tag.isEmpty && (interpDigits tag == idx)
      && (rest.length == w + 9) && (rest.getD w 'x' == ' ') then
    some (trimRight (rest.take w),
      toHex8 (crcOfChars (trimRight (rest.take w))) == rest.drop (w + 1))
  else none

/-- Parse and validate one parity line against its expected 0-based group
index. -/
def checkParityLine (w gIdx : Nat) (l : List Char) : Option (List Char × Bool) :=
  let tag := l.takeWhile (fun c => c != ' ')
  let rest := l.drop (tag.length + 1)
  match tag with
  | p :: ds =>
    if (p == 'P') && ds.all Char.isDigit && !ds.isEmpty && (interpDigits ds == gIdx)
        && (rest.length == w + 9) && (rest.getD w 'x' == ' ') then
      some (trimRight (rest.take w),
        toHex8 (crcOfChars (trimRight (rest.take w))) == rest.drop (w + 1))
    else none
  | [] => none

/-- Parse a group's data lines; `idx` is the expected 1-based global index
of the first of them. -/
def parseDatas (w : Nat) : Nat → List (List Char) → Option (List (List Char × Bool))
  | _, [] => some []
  | idx, l :: rest =>
    match checkDataLine w idx l, parseDatas w (idx + 1) rest with
    | some p, some ps => some (p :: ps)
    | _, _ => none

/-- 0-based positions of the checksum-mismatched (bad) data lines. -/
def badIdx : Nat → List (List Char × Bool) → List Nat
  | _, [] => []
  | i, p :: rest => if p.2 then badIdx (i + 1) rest else i :: badIdx (i + 1) rest

/-- Modelled from the spec: reconstruct a bad chunk's raw bytes as the XOR
of the parity's decoded bytes with all other data lines' decoded bytes. -/
def recoverBytes (ps : List (List Char × Bool)) (j : Nat) (pPay : List Char) : List Nat :=
  ((ps.eraseIdx j).map (fun q => b32decodeChars q.1)).foldl
    (fun acc d => xorBytes acc d) (b32decodeChars pPay)

/-- Modelled from the spec: decode one group: checksum-check every line,
concatenate the payloads if none is bad, repair via parity if exactly one
is bad and the parity is good, and otherwise fail with `CorruptionError`. -/
def decodeGroup (w gIdx cIdx : Nat) (grp : List (List Char)) : DRes (List Char) :=
  match grp.getLast? with
  | none => .error .FormatError
  | some pl =>
    match parseDatas w (cIdx + 1) grp.dropLast, checkParityLine w gIdx pl with
    | some ps, some pp =>
      match badIdx 0 ps with
      | [] => .ok ((ps.map Prod.fst).flatten)
      | [j] =>
        if pp.2 then
          .ok (((ps.map Prod.fst).set j (b32encodeChars (recoverBytes ps j pp.1))).flatten)
        else .error (.CorruptionError gIdx)
      | _ => .error (.CorruptionError gIdx)
    | _, _ => .error .FormatError

/-- Decode a sequence of per-group line blocks, threading the group index
and the global chunk index and concatenating the recovered text. -/
def decodeGroups (w : Nat) : Nat → Nat → List (List (List Char)) → DRes (List Char)
  | _, _, [] => .ok []
  | gIdx, cIdx, grp :: rest =>
    match decodeGroup w gIdx cIdx grp with
    | .error e => .error e
    | .ok t =>
      match decodeGroups w (gIdx + 1) (cIdx + (grp.length - 1)) rest with
      | .error e => .error e
      | .ok ts => .ok (t ++ ts)

/-- Modelled from the spec: `decode(lines, width, group_size)`: split the
transcript into per-group blocks of `group_size + 1` lines, decode each
group (repairing at most one bad data line via parity), concatenate the
base-32 text and decode it back to raw bytes. -/
def decode (lines : List (List Char)) (width group_size : Nat) : DRes (List Nat) :=
  match decodeGroups width 0 0 (chunkList (group_size + 1) lines) with
  | .ok t => .ok (b32decodeChars t)
  | .error e => .error e

/-! ### Corruption of an encoded stream -/

/-- Replace a line's payload field (the `w` characters after its tag and the
following space) with `garbage`, keeping the tag and the emitted checksum. -/
def replacePayload (w : Nat) (l garbage : List Char) : List Char :=
  let tag := l.takeWhile (fun c => c != ' ')
  tag ++ ' ' :: (garbage ++ l.drop (tag.length + 1 + w))

/-- Corrupt the payload of the line at position `pos` of a stream. -/
def corruptAt (w : Nat) (lines : List (List Char)) (pos : Nat) (garbage : List Char) :
    List (List Char) :=
  lines.set pos (replacePayload w (lines.getD pos []) garbage)

/-- Apply `f` to the element at position `i`. -/
def modifyAt {α : Type} : List α → Nat → (α → α) → List α
  | [], _, _ => []
  | x :: xs, 0, f => f x :: xs
  | x :: xs, i + 1, f => x :: modifyAt xs i f

/-- A list of pieces as produced by `chunkList k`: all pieces are nonempty,
every piece but the last has exactly `k` elements, and the last has at most
`k`. -/
def ChunkedBy {α : Type} (k : Nat) : List (List α) → Prop
  | [] => True
  | [c] => c ≠ [] ∧ c.length ≤ k
  | c :: rest => c.length = k ∧ ChunkedBy k rest

/-- All characters of a chunk belong to the base-32 alphabet. -/
def allAlpha (c : List Char) : Prop := ∀ x ∈ c, x ∈ b32alphabet

end FEC

namespace DirSize

/-! ### Model of `dirsize.py` -/

/-- A directory tree: a name, the sizes of the files directly inside, and
the subdirectories. -/
inductive FSTree where
  | node : List Char → List Nat → List FSTree → FSTree

/-- The directory's name. -/
def nameOf : FSTree → List Char
  | .node n _ _ => n

/-- A name counts as hidden when it starts with a dot. -/
def isHidden (n : List Char) : Bool :=
  match n with
  | '.' :: _ => true
  | _ => false

mutual

/-- Total size of a directory and its subdirectories
(`get_directory_size`). -/
def dirSize : FSTree → Nat
  | .node _ files subs => files.sum + dirSizeList subs

/-- Total size of a list of directories. -/
def dirSizeList : List FSTree → Nat
  | [] => 0
  | t :: ts => dirSize t + dirSizeList ts

end

mutual

/-- The `(path, size)` entries collected by the `os.walk` loop of
`analyze_directories`: every non-hidden subdirectory, recursively; hidden
directories are pruned and not descended into. -/
def walkDir (path : List Char) : FSTree → List (List Char × Nat)
  | .node _ _ subs => walkSubs path subs

/-- Walk a list of sibling subdirectories. -/
def walkSubs (path : List Char) : List FSTree → List (List Char × Nat)
  | [] => []
  | s :: rest =>
    (if isHidden (nameOf s) then []
     else (path ++ '/' :: nameOf s, dirSize s) ::
       walkDir (path ++ '/' :: nameOf s) s) ++ walkSubs path rest

end

/-- Insert into a size-descending list, keeping equal keys stable
(Python's `sorted(..., reverse=True)` contract). -/
def insertDesc (x : List Char × Nat) : List (List Char × Nat) → List (List Char × Nat)
  | [] => [x]
  | y :: ys => if y.2 < x.2 then x :: y :: ys else y :: insertDesc x ys

/-- Stable sort by size, largest first. -/
def sortBySizeDesc (l : List (List Char × Nat)) : List (List Char × Nat) :=
  l.foldr insertDesc []

/-- Model of `analyze_directories`: collect every non-hidden directory with
its recursive size, append the start directory itself unless hidden, and
sort by size, largest first. -/
def analyze_directories (start_path : List Char) (t : FSTree) : List (List Char × Nat) :=
  let entries := walkDir start_path t
  let entries2 :=
    if isHidden (nameOf t) then entries else entries ++ [(start_path, dirSize t)]
  sortBySizeDesc entries2

end DirSize

namespace TempCopy

/-! ### Model of `temp.py` -/

/-- Python `str.strip()`: remove leading and trailing whitespace. -/
def pstrip (l : List Char) : List Char :=
  ((l.dropWhile Char.isWhitespace).reverse.dropWhile Char.isWhitespace).reverse

/-- POSIX `os.path.isabs`: the path starts with a slash. -/
def isabs : List Char → Bool
  | c :: _ => c == '/'
  | [] => false

/-- Split a character list at slashes (accumulator-based helper). -/
def splitOnSlashAux : List Char → List Char → List (List Char)
  | acc, [] => [acc.reverse]
  | acc, c :: rest =>
    if c = '/' then acc.reverse :: splitOnSlashAux [] rest
    else splitOnSlashAux (c :: acc) rest

/-- The nonempty path components of a path. -/
def splitSegs (l : List Char) : List (List Char) :=
  (splitOnSlashAux [] l).filter (fun s => !s.isEmpty)

/-- Length of the longest common component prefix of two split paths. -/
def commonLen : List (List Char) → List (List Char) → Nat
  | a :: as, b :: bs => if a == b then commonLen as bs + 1 else 0
  | _, _ => 0

/-- Join path components with slashes. -/
def intercalSlash : List (List Char) → List Char
  | [] => []
  | [s] => s
  | s :: rest => s ++ '/' :: intercalSlash rest

/-- POSIX `os.path.relpath(path, start)` on normalized absolute paths:
climb out of the uncommon part of `start` with `..` components, then
descend into the uncommon part of `path`; the empty result is `.`. -/
def relpath (path start : List Char) : List Char :=
  let pp := splitSegs path
  let ss := splitSegs start
  let i := commonLen pp ss
  let parts := List.replicate (ss.length - i) ['.', '.'] ++ pp.drop i
  if parts.isEmpty then ['.'] else intercalSlash parts

/-- Python `str.startswith('..')`. -/
def startsDotDot : List Char → Bool
  | '.' :: '.' :: _ => true
  | _ => false

/-- Model of `_process_exclude_list`: strip each entry, drop empty ones,
relativize absolute entries against the source directory (dropping those
whose relativization escapes it), and keep relative entries as they are. -/
def _process_exclude_list : List (List Char) → List Char → List (List Char)
  | [], _ => []
  | e :: rest, source_dir =>
    let e2 := pstrip e
    if e2.isEmpty then _process_exclude_list rest source_dir
    else if isabs e2 then
      (if startsDotDot (relpath e2 source_dir) then _process_exclude_list rest source_dir
       else relpath e2 source_dir :: _process_exclude_list rest source_dir)
    else e2 :: _process_exclude_list rest source_dir

/-- The filesystem facts and process outcomes the copy consults. -/
structure FileSystem where
  pathExists : List Char → Bool
  pathIsDir : List Char → Bool
  rsyncAvailable : Bool
  rsyncSucceeds : Bool
  cpSucceeds : Bool

/-- Externally visible filesystem-changing steps of the copy. -/
inductive FSAction where
  | makedirs : List Char → FSAction
  | runRsync : List Char → List Char → List (List Char) → FSAction
  | runCp : List Char → List Char → List (List Char) → FSAction
deriving DecidableEq

/-- Model of `copy_directory_with_exclusions`: validate the source, then
create the destination directory and run rsync (or fall back to cp); the
returned action list records the filesystem effects in order. -/
def copy_directory_with_exclusions (fs : FileSystem) (source_dir dest_dir : List Char)
    (exclude_dirs : List (List Char)) (use_rsync : Bool) : Bool × List FSAction :=
  if fs.pathExists source_dir = false then (false, [])
  else if fs.pathIsDir source_dir = false then (false, [])
  else
    let excl := _process_exclude_list exclude_dirs source_dir
    if use_rsync && fs.rsyncAvailable then
      (fs.rsyncSucceeds, [.makedirs dest_dir, .runRsync source_dir dest_dir excl])
    else
      (fs.cpSucceeds, [.makedirs dest_dir, .runCp source_dir dest_dir excl])

end TempCopy

namespace FEC

/-! ### Lemmas: bit-level primitives -/

theorem bitsToNat_foldl (l : List Bool) (a : Nat) :
    l.foldl (fun x b => 2 * x + b.toNat) a = a * 2 ^ l.length + bitsToNat l := by
  induction l generalizing a with
  | nil => simp [bitsToNat]
  | cons b l ih =>
    show l.foldl _ (2 * a + b.toNat) = _
    rw [ih]
    have hb : bitsToNat (b :: l) = (2 * 0 + b.toNat) * 2 ^ l.length + bitsToNat l := by
      show l.foldl _ (2 * 0 + b.toNat) = _
      rw [ih]
    rw [hb]
    simp [List.length_cons]
    ring

theorem bitsToNat_cons (b : Bool) (l : List Bool) :
    bitsToNat (b :: l) = b.toNat * 2 ^ l.length + bitsToNat l := by
  show l.foldl _ (2 * 0 + b.toNat) = _
  rw [bitsToNat_foldl]
  ring_nf

theorem bitsToNat_append (l1 l2 : List Bool) :
    bitsToNat (l1 ++ l2) = bitsToNat l1 * 2 ^ l2.length + bitsToNat l2 := by
  show (l1 ++ l2).foldl _ 0 = _
  rw [List.foldl_append, bitsToNat_foldl]
  rfl

theorem bitsToNat_singleton (b : Bool) : bitsToNat [b] = b.toNat := by
  cases b <;> rfl

theorem bitsToNat_lt (l : List Bool) : bitsToNat l < 2 ^ l.length := by
  induction l with
  | nil => simp [bitsToNat]
  | cons b l ih =>
    rw [bitsToNat_cons, List.length_cons]
    have h2 : (2:Nat) ^ (l.length + 1) = 2 * 2 ^ l.length := by rw [pow_succ]; ring
    cases b <;> simp <;> omega

theorem natToBits_length (k n : Nat) : (natToBits k n).length = k := by
  induction k generalizing n with
  | zero => rfl
  | succ k ih => simp [natToBits, ih]

theorem bitsToNat_natToBits (k n : Nat) : bitsToNat (natToBits k n) = n % 2 ^ k := by
  induction k generalizing n with
  | zero => simp [natToBits, bitsToNat, Nat.mod_one]
  | succ k ih =>
    rw [natToBits, bitsToNat_append, ih, bitsToNat_singleton]
    have hd : (decide (n % 2 = 1)).toNat = n % 2 := by
      have : n % 2 = 0 ∨ n % 2 = 1 := by omega
      rcases this with h | h <;> simp [h]
    rw [hd, List.length_singleton, pow_one]
    have hP : 0 < 2 ^ k := Nat.pow_pos (by omega)
    have e1 := Nat.div_add_mod n 2
    have e2 := Nat.div_add_mod (n / 2) (2 ^ k)
    have e3 := Nat.div_add_mod n (2 ^ (k + 1))
    have e4 : n / 2 ^ (k + 1) = n / 2 / 2 ^ k := by
      rw [Nat.div_div_eq_div_mul, ← pow_succ']
    have e5 : (2:Nat) ^ (k + 1) = 2 * 2 ^ k := by rw [pow_succ']
    rw [e4, e5, mul_assoc] at e3
    rw [e5]
    have h6 : n % 2 < 2 := Nat.mod_lt _ (by omega)
    have h7 : n / 2 % 2 ^ k < 2 ^ k := Nat.mod_lt _ hP
    have h8 : n % (2 * 2 ^ k) < 2 * 2 ^ k := Nat.mod_lt _ (by omega)
    omega

theorem natToBits_bitsToNat (l : List Bool) : natToBits l.length (bitsToNat l) = l := by
  induction l using List.reverseRecOn with
  | nil => rfl
  | append_singleton xs b ih =>
    rw [List.length_append, List.length_singleton, bitsToNat_append, bitsToNat_singleton,
      List.length_singleton, pow_one, natToBits]
    have hb : b.toNat ≤ 1 := Bool.toNat_le b
    have h1 : (bitsToNat xs * 2 + b.toNat) / 2 = bitsToNat xs := by omega
    have h2 : (bitsToNat xs * 2 + b.toNat) % 2 = b.toNat := by omega
    rw [h1, h2, ih]
    have : decide (b.toNat = 1) = b := by cases b <;> simp
    rw [this]

end FEC

namespace FEC

/-! ### Lemmas: chunking -/

theorem chunksExact_congr {α : Type} (k : Nat) (hk : 0 < k) :
    ∀ (f g : Nat) (l : List α), l.length ≤ f → l.length ≤ g →
      chunksExact k f l = chunksExact k g l := by
  intro f
  induction f with
  | zero =>
    intro g l hf hg
    have : l = [] := List.eq_nil_of_length_eq_zero (by omega)
    subst this
    cases g <;> rfl
  | succ f ih =>
    intro g l hf hg
    cases l with
    | nil => cases g <;> rfl
    | cons x xs =>
      cases g with
      | zero => simp at hg
      | succ g =>
        show (x :: xs).take k :: chunksExact k f ((x :: xs).drop k)
            = (x :: xs).take k :: chunksExact k g ((x :: xs).drop k)
        congr 1
        apply ih
        · rw [List.length_drop]
          simp only [List.length_cons] at hf ⊢
          omega
        · rw [List.length_drop]
          simp only [List.length_cons] at hg ⊢
          omega


theorem chunkList_nil {α : Type} (k : Nat) : chunkList k ([] : List α) = [] := rfl

theorem chunkList_cons_eq {α : Type} (k : Nat) (hk : 0 < k) (l : List α) (hl : l ≠ []) :
    chunkList k l = l.take k :: chunkList k (l.drop k) := by
  cases l with
  | nil => exact absurd rfl hl
  | cons x xs =>
    show chunksExact k (xs.length + 1) (x :: xs) = _
    show (x :: xs).take k :: chunksExact k xs.length ((x :: xs).drop k) = _
    congr 1
    apply chunksExact_congr k hk
    · rw [List.length_drop]; simp; omega
    · exact Nat.le_refl _

theorem chunkList_flatten {α : Type} (k : Nat) (hk : 0 < k) :
    ∀ (l : List α), (chunkList k l).flatten = l := by
  have main : ∀ (n : Nat) (l : List α), l.length ≤ n → (chunkList k l).flatten = l := by
    intro n
    induction n with
    | zero =>
      intro l h
      have : l = [] := List.eq_nil_of_length_eq_zero (by omega)
      subst this; rfl
    | succ n ih =>
      intro l h
      cases l with
      | nil => rfl
      | cons x xs =>
        rw [chunkList_cons_eq k hk _ (by simp), List.flatten_cons, ih]
        · exact List.take_append_drop k (x :: xs)
        · rw [List.length_drop]; simp at h ⊢; omega
  intro l
  exact main l.length l (Nat.le_refl _)

theorem mem_chunkList {α : Type} (k : Nat) (hk : 0 < k) :
    ∀ (l : List α), ∀ c ∈ chunkList k l, c.length ≤ k ∧ c ≠ [] := by
  have main : ∀ (n : Nat) (l : List α), l.length ≤ n →
      ∀ c ∈ chunkList k l, c.length ≤ k ∧ c ≠ [] := by
    intro n
    induction n with
    | zero =>
      intro l h c hc
      have : l = [] := List.eq_nil_of_length_eq_zero (by omega)
      subst this; simp [chunkList_nil] at hc
    | succ n ih =>
      intro l h c hc
      cases l with
      | nil => simp [chunkList_nil] at hc
      | cons x xs =>
        rw [chunkList_cons_eq k hk _ (by simp)] at hc
        rcases List.mem_cons.mp hc with h1 | h1
        · subst h1
          constructor
          · rw [List.length_take]; omega
          · intro hcon
            have := congrArg List.length hcon
            rw [List.length_take] at this
            simp at this
            omega
        · apply ih _ _ _ h1
          rw [List.length_drop]; simp at h ⊢; omega
  intro l
  exact main l.length l (Nat.le_refl _)

theorem mem_of_mem_chunkList {α : Type} (k : Nat) (hk : 0 < k) (l : List α)
    (c : List α) (hc : c ∈ chunkList k l) (x : α) (hx : x ∈ c) : x ∈ l := by
  have := List.mem_flatten.mpr ⟨c, hc, hx⟩
  rwa [chunkList_flatten k hk] at this

theorem chunkList_full {α : Type} (k : Nat) (hk : 0 < k) :
    ∀ (l : List α), k ∣ l.length → ∀ c ∈ chunkList k l, c.length = k := by
  have main : ∀ (n : Nat) (l : List α), l.length ≤ n → k ∣ l.length →
      ∀ c ∈ chunkList k l, c.length = k := by
    intro n
    induction n with
    | zero =>
      intro l h _ c hc
      have : l = [] := List.eq_nil_of_length_eq_zero (by omega)
      subst this; simp [chunkList_nil] at hc
    | succ n ih =>
      intro l h hd c hc
      cases l with
      | nil => simp [chunkList_nil] at hc
      | cons x xs =>
        have hkle : k ≤ (x :: xs).length := by
          rcases hd with ⟨m, hm⟩
          rcases m with _ | m
          · simp at hm
          · rw [hm, Nat.mul_succ]; omega
        rw [chunkList_cons_eq k hk _ (by simp)] at hc
        rcases List.mem_cons.mp hc with h1 | h1
        · subst h1; rw [List.length_take]; omega
        · apply ih _ _ _ _ h1
          · rw [List.length_drop]; simp at h ⊢; omega
          · rw [List.length_drop]
            rcases hd with ⟨m, hm⟩
            exact ⟨m - 1, by rw [hm]; cases m <;> simp [Nat.mul_succ] at hm ⊢⟩
  intro l
  exact main l.length l (Nat.le_refl _)

theorem chunkList_length_of_dvd {α : Type} (k : Nat) (hk : 0 < k) :
    ∀ (l : List α), k ∣ l.length → (chunkList k l).length = l.length / k := by
  have main : ∀ (n : Nat) (l : List α), l.length ≤ n → k ∣ l.length →
      (chunkList k l).length = l.length / k := by
    intro n
    induction n with
    | zero =>
      intro l h _
      have : l = [] := List.eq_nil_of_length_eq_zero (by omega)
      subst this; simp [chunkList_nil]
    | succ n ih =>
      intro l h hd
      cases l with
      | nil => simp [chunkList_nil]
      | cons x xs =>
        have hkle : k ≤ (x :: xs).length := by
          rcases hd with ⟨m, hm⟩
          rcases m with _ | m
          · simp at hm
          · rw [hm, Nat.mul_succ]; omega
        rw [chunkList_cons_eq k hk _ (by simp), List.length_cons, ih]
        · rw [List.length_drop]
          rcases hd with ⟨m, hm⟩
          rw [hm, Nat.mul_div_cancel_left _ hk]
          cases m with
          | zero => simp at hm
          | succ m =>
            have : k * (m + 1) - k = k * m := by rw [Nat.mul_succ]; omega
            rw [this, Nat.mul_div_cancel_left _ hk]
        · rw [List.length_drop]; simp at h ⊢; omega
        · rw [List.length_drop]
          rcases hd with ⟨m, hm⟩
          exact ⟨m - 1, by rw [hm]; cases m <;> simp [Nat.mul_succ] at hm ⊢⟩
  intro l
  exact main l.length l (Nat.le_refl _)

theorem chunkList_of_full {α : Type} (k : Nat) (hk : 0 < k) :
    ∀ (ls : List (List α)), (∀ c ∈ ls, c.length = k) →
      chunkList k ls.flatten = ls := by
  intro ls
  induction ls with
  | nil => intro _; rfl
  | cons c rest ih =>
    intro h
    have hc : c.length = k := h c (by simp)
    have hcne : c ≠ [] := by
      intro hcon; rw [hcon] at hc; simp at hc; omega
    rw [List.flatten_cons, chunkList_cons_eq k hk _ (by simp [hcne]),
      List.take_left' hc, List.drop_left' hc, ih (fun d hd => h d (by simp [hd]))]

theorem chunkList_append_full {α : Type} (k : Nat) (hk : 0 < k) (p t : List α)
    (hp : p.length = k) : chunkList k (p ++ t) = p :: chunkList k t := by
  have hpne : p ≠ [] := by
    intro hcon; rw [hcon] at hp; simp at hp; omega
  rw [chunkList_cons_eq k hk _ (by simp [hpne]), List.take_left' hp, List.drop_left' hp]

theorem chunkList_short {α : Type} (k : Nat) (hk : 0 < k) (l : List α)
    (hne : l ≠ []) (hle : l.length ≤ k) : chunkList k l = [l] := by
  rw [chunkList_cons_eq k hk _ hne, List.take_of_length_le hle,
    List.drop_of_length_le hle, chunkList_nil]

end FEC

namespace FEC

/-! ### Lemmas: the `ChunkedBy` shape and positional access through `flatten` -/

theorem chunkedBy_nil {α : Type} (k : Nat) : ChunkedBy k ([] : List (List α)) := trivial

theorem chunkedBy_singleton {α : Type} (k : Nat) (c : List α) :
    ChunkedBy k [c] ↔ c ≠ [] ∧ c.length ≤ k := Iff.rfl

theorem chunkedBy_cons2 {α : Type} (k : Nat) (c c2 : List α) (rest : List (List α)) :
    ChunkedBy k (c :: c2 :: rest) ↔ c.length = k ∧ ChunkedBy k (c2 :: rest) := Iff.rfl

theorem chunkedBy_chunkList {α : Type} (k : Nat) (hk : 0 < k) :
    ∀ (l : List α), ChunkedBy k (chunkList k l) := by
  have main : ∀ (n : Nat) (l : List α), l.length ≤ n → ChunkedBy k (chunkList k l) := by
    intro n
    induction n with
    | zero =>
      intro l h
      have : l = [] := List.eq_nil_of_length_eq_zero (by omega)
      subst this; exact chunkedBy_nil k
    | succ n ih =>
      intro l h
      cases l with
      | nil => exact chunkedBy_nil k
      | cons x xs =>
        rw [chunkList_cons_eq k hk _ (by simp)]
        have hdroplen : ((x :: xs).drop k).length ≤ n := by
          rw [List.length_drop]; simp only [List.length_cons] at h ⊢; omega
        cases hdrop : (x :: xs).drop k with
        | nil =>
          rw [chunkList_nil, chunkedBy_singleton]
          constructor
          · simp
            omega
          · rw [List.length_take]; omega
        | cons y ys =>
          have hlen : k < (x :: xs).length := by
            by_contra hcon
            have : (x :: xs).drop k = [] := List.drop_of_length_le (by omega)
            rw [this] at hdrop; exact List.noConfusion hdrop
          have := ih ((x :: xs).drop k) hdroplen
          rw [hdrop] at this
          rw [chunkList_cons_eq k hk _ (by simp)] at this ⊢
          rw [chunkedBy_cons2]
          refine ⟨?_, this⟩
          rw [List.length_take]; omega
  intro l
  exact main l.length l (Nat.le_refl _)

theorem chunkList_of_chunkedBy {α : Type} (k : Nat) (hk : 0 < k) :
    ∀ (ls : List (List α)), ChunkedBy k ls → chunkList k ls.flatten = ls := by
  intro ls
  induction ls with
  | nil => intro _; rfl
  | cons c rest ih =>
    intro h
    cases rest with
    | nil =>
      rw [chunkedBy_singleton] at h
      simp only [List.flatten_cons, List.flatten_nil, List.append_nil]
      exact chunkList_short k hk c h.1 h.2
    | cons c2 rest2 =>
      rw [chunkedBy_cons2] at h
      rw [List.flatten_cons, chunkList_append_full k hk _ _ h.1, ih h.2]

theorem chunkedBy_mem {α : Type} (k : Nat) (hk : 0 < k) :
    ∀ (ls : List (List α)), ChunkedBy k ls → ∀ c ∈ ls, c ≠ [] ∧ c.length ≤ k := by
  intro ls
  induction ls with
  | nil => intro _ c hc; simp at hc
  | cons c rest ih =>
    intro h d hd
    cases rest with
    | nil =>
      rw [chunkedBy_singleton] at h
      rcases List.mem_cons.mp hd with h1 | h1
      · subst h1; exact h
      · simp at h1
    | cons c2 rest2 =>
      rw [chunkedBy_cons2] at h
      rcases List.mem_cons.mp hd with h1 | h1
      · subst h1
        constructor
        · intro hcon; rw [hcon] at h; simp at h; omega
        · omega
      · exact ih h.2 d h1

theorem chunkedBy_getD_full {α : Type} (k : Nat) :
    ∀ (ls : List (List α)), ChunkedBy k ls → ∀ G, G + 1 < ls.length →
      (ls.getD G []).length = k := by
  intro ls
  induction ls with
  | nil => intro _ G hG; simp at hG
  | cons c rest ih =>
    intro h G hG
    cases rest with
    | nil => simp at hG
    | cons c2 rest2 =>
      rw [chunkedBy_cons2] at h
      cases G with
      | zero => exact h.1
      | succ G =>
        show ((c2 :: rest2).getD G []).length = k
        apply ih h.2
        simp only [List.length_cons] at hG ⊢
        omega

theorem modifyAt_nil {α : Type} (i : Nat) (f : α → α) : modifyAt [] i f = [] := rfl

theorem modifyAt_zero {α : Type} (x : α) (xs : List α) (f : α → α) :
    modifyAt (x :: xs) 0 f = f x :: xs := rfl

theorem modifyAt_succ {α : Type} (x : α) (xs : List α) (i : Nat) (f : α → α) :
    modifyAt (x :: xs) (i + 1) f = x :: modifyAt xs i f := rfl

theorem length_modifyAt {α : Type} : ∀ (l : List α) (i : Nat) (f : α → α),
    (modifyAt l i f).length = l.length := by
  intro l
  induction l with
  | nil => intro i f; rfl
  | cons x xs ih =>
    intro i f
    cases i with
    | zero => rfl
    | succ i => simp only [modifyAt_succ, List.length_cons, ih]

theorem chunkedBy_modifyAt {α : Type} (k : Nat) :
    ∀ (ls : List (List α)) (i : Nat) (f : List α → List α),
      ChunkedBy k ls → (∀ c, (f c).length = c.length) →
      ChunkedBy k (modifyAt ls i f) := by
  intro ls
  induction ls with
  | nil => intro i f h _; exact h
  | cons c rest ih =>
    intro i f h hf
    cases i with
    | zero =>
      rw [modifyAt_zero]
      cases rest with
      | nil =>
        rw [chunkedBy_singleton] at h ⊢
        refine ⟨?_, by rw [hf]; exact h.2⟩
        intro hcon
        have := congrArg List.length hcon
        rw [hf] at this
        exact h.1 (List.eq_nil_of_length_eq_zero (by simpa using this))
      | cons c2 rest2 =>
        rw [chunkedBy_cons2] at h ⊢
        exact ⟨by rw [hf]; exact h.1, h.2⟩
    | succ i =>
      rw [modifyAt_succ]
      cases rest with
      | nil => rw [modifyAt_nil]; exact h
      | cons c2 rest2 =>
        rw [chunkedBy_cons2] at h
        have htail := ih i f h.2 hf
        cases i with
        | zero =>
          rw [modifyAt_zero] at htail ⊢
          rw [chunkedBy_cons2]
          exact ⟨h.1, htail⟩
        | succ i =>
          rw [modifyAt_succ] at htail ⊢
          rw [chunkedBy_cons2]
          exact ⟨h.1, htail⟩

theorem flatten_set {α : Type} (k : Nat) :
    ∀ (ls : List (List α)) (G r : Nat) (x : α),
      ChunkedBy k ls → r < (ls.getD G []).length → G < ls.length →
      ls.flatten.set (G * k + r) x = (modifyAt ls G (fun p => p.set r x)).flatten := by
  intro ls
  induction ls with
  | nil => intro G r x _ _ hG; simp at hG
  | cons c rest ih =>
    intro G r x h hr hG
    cases G with
    | zero =>
      simp only [List.getD_cons_zero] at hr
      rw [modifyAt_zero, List.flatten_cons, List.flatten_cons, Nat.zero_mul, Nat.zero_add,
        List.set_append_left _ _ hr]
    | succ G =>
      cases rest with
      | nil => simp at hG
      | cons c2 rest2 =>
        rw [chunkedBy_cons2] at h
        have hplen : c.length = k := h.1
        have hgd : (c :: c2 :: rest2).getD (G + 1) ([] : List α) = (c2 :: rest2).getD G [] := rfl
        have key := ih G r x h.2 (by rw [hgd] at hr; exact hr) (by simpa using hG)
        have hidx : (G + 1) * k + r = c.length + (G * k + r) := by
          rw [hplen, Nat.succ_mul]; omega
        rw [modifyAt_succ]
        show (c ++ (c2 :: rest2).flatten).set ((G + 1) * k + r) x
            = c ++ (modifyAt (c2 :: rest2) G fun p => p.set r x).flatten
        rw [hidx, List.set_append_right _ _ (by omega)]
        have h2 : c.length + (G * k + r) - c.length = G * k + r := by omega
        rw [h2, key]

theorem getD_flatten {α : Type} (k : Nat) (d : α) :
    ∀ (ls : List (List α)) (G r : Nat),
      ChunkedBy k ls → r < (ls.getD G []).length → G < ls.length →
      ls.flatten.getD (G * k + r) d = (ls.getD G []).getD r d := by
  intro ls
  induction ls with
  | nil => intro G r _ _ hG; simp at hG
  | cons c rest ih =>
    intro G r h hr hG
    cases G with
    | zero =>
      simp only [List.getD_cons_zero] at hr ⊢
      rw [List.flatten_cons, Nat.zero_mul, Nat.zero_add, List.getD_append _ _ _ _ hr]
    | succ G =>
      cases rest with
      | nil => simp at hG
      | cons c2 rest2 =>
        rw [chunkedBy_cons2] at h
        have hplen : c.length = k := h.1
        have hidx : (G + 1) * k + r = c.length + (G * k + r) := by
          rw [hplen, Nat.succ_mul]; omega
        rw [List.flatten_cons, hidx, List.getD_append_right _ _ _ _ (by omega)]
        have h2 : c.length + (G * k + r) - c.length = G * k + r := by omega
        have hgd : (c :: c2 :: rest2).getD (G + 1) ([] : List α) = (c2 :: rest2).getD G [] := rfl
        rw [h2, hgd]
        exact ih G r h.2 (by rw [hgd] at hr; exact hr) (by simpa using hG)

end FEC

namespace FEC

/-! ### Lemmas: base-32 round trips -/

theorem length_bytesToBits (bs : List Nat) : (bytesToBits bs).length = 8 * bs.length := by
  induction bs with
  | nil => rfl
  | cons b rest ih =>
    show (natToBits 8 b ++ bytesToBits rest).length = _
    rw [List.length_append, natToBits_length, ih, List.length_cons]
    ring

theorem length_flatten_natToBits (k : Nat) (syms : List Nat) :
    ((syms.map (natToBits k)).flatten).length = k * syms.length := by
  induction syms with
  | nil => simp
  | cons s rest ih =>
    rw [List.map_cons, List.flatten_cons, List.length_append, natToBits_length, ih,
      List.length_cons]
    ring

theorem pad5len_lt (m : Nat) : pad5len m < 5 := by
  unfold pad5len; omega

theorem pad5len_dvd (m : Nat) : 5 ∣ (m + pad5len m) := by
  unfold pad5len; omega

theorem pad5len_of_dvd (m : Nat) (h : 5 ∣ m) : pad5len m = 0 := by
  unfold pad5len; omega

theorem charToSym_symToChar (s : Nat) (hs : s < 32) : charToSym (symToChar s) = s := by
  have h : ∀ t : Fin 32, charToSym (symToChar t.val) = t.val := by decide
  exact h ⟨s, hs⟩

theorem symToChar_charToSym (c : Char) (hc : c ∈ b32alphabet) :
    symToChar (charToSym c) = c := by
  have h : ∀ x ∈ b32alphabet, symToChar (charToSym x) = x := by decide
  exact h c hc

theorem charToSym_lt (c : Char) (hc : c ∈ b32alphabet) : charToSym c < 32 := by
  have h : ∀ x ∈ b32alphabet, charToSym x < 32 := by decide
  exact h c hc

theorem symToChar_mem (s : Nat) : symToChar s ∈ b32alphabet := by
  by_cases h : s < 32
  · have h32 : ∀ t : Fin 32, symToChar t.val ∈ b32alphabet := by decide
    exact h32 ⟨s, h⟩
  · have : symToChar s = 'A' := by
      unfold symToChar
      apply List.getD_eq_default
      show 32 ≤ s
      omega
    rw [this]
    decide

theorem mem_b32encodeChars (bs : List Nat) : ∀ c ∈ b32encodeChars bs, c ∈ b32alphabet := by
  intro c hc
  unfold b32encodeChars at hc
  rcases List.mem_map.mp hc with ⟨s, _, rfl⟩
  exact symToChar_mem s

theorem b32encode_syms_lt (bs : List Nat) :
    ∀ s ∈ (chunkList 5 (bytesToBits bs ++
      List.replicate (pad5len (8 * bs.length)) false)).map bitsToNat, s < 32 := by
  intro s hs
  rcases List.mem_map.mp hs with ⟨c, hc, rfl⟩
  have hlen := (mem_chunkList 5 (by omega) _ c hc).1
  calc bitsToNat c < 2 ^ c.length := bitsToNat_lt c
  _ ≤ 2 ^ 5 := Nat.pow_le_pow_right (by omega) hlen
  _ = 32 := by norm_num

theorem bits_of_b32encodeChars (bs : List Nat) :
    (((b32encodeChars bs).map charToSym).map (natToBits 5)).flatten =
      bytesToBits bs ++ List.replicate (pad5len (8 * bs.length)) false := by
  set padded := bytesToBits bs ++ List.replicate (pad5len (8 * bs.length)) false with hpad
  have hdvd : 5 ∣ padded.length := by
    rw [hpad, List.length_append, List.length_replicate, length_bytesToBits]
    exact pad5len_dvd _
  have h1 : (b32encodeChars bs).map charToSym = (chunkList 5 padded).map bitsToNat := by
    show (((chunkList 5 padded).map bitsToNat).map symToChar).map charToSym = _
    rw [List.map_map, List.map_map]
    apply List.map_congr_left
    intro c hcm
    show charToSym (symToChar (bitsToNat c)) = bitsToNat c
    exact charToSym_symToChar _ (b32encode_syms_lt bs _ (List.mem_map_of_mem _ hcm))
  rw [h1, List.map_map]
  have h2 : (chunkList 5 padded).map (natToBits 5 ∘ bitsToNat) =
      (chunkList 5 padded).map id := by
    apply List.map_congr_left
    intro c hc
    have hfull := chunkList_full 5 (by omega) padded hdvd c hc
    show natToBits 5 (bitsToNat c) = c
    rw [← hfull, natToBits_bitsToNat]
  rw [h2, List.map_id, chunkList_flatten 5 (by omega)]

theorem length_b32encodeChars (bs : List Nat) :
    (b32encodeChars bs).length = (8 * bs.length + pad5len (8 * bs.length)) / 5 := by
  unfold b32encodeChars
  rw [List.length_map, List.length_map]
  rw [chunkList_length_of_dvd 5 (by omega)]
  · rw [List.length_append, List.length_replicate, length_bytesToBits]
  · rw [List.length_append, List.length_replicate, length_bytesToBits]
    exact pad5len_dvd _

theorem b32_roundtrip (bs : List Nat) (h : ∀ x ∈ bs, x < 256) :
    b32decodeChars (b32encodeChars bs) = bs := by
  have hbits := bits_of_b32encodeChars bs
  have hlen := length_b32encodeChars bs
  set n := bs.length with hn
  set p := pad5len (8 * n) with hp
  have hple : p < 5 := pad5len_lt _
  have hdvd : 5 ∣ (8 * n + p) := pad5len_dvd _
  have h5s : 5 * (b32encodeChars bs).length = 8 * n + p := by
    rw [hlen, Nat.mul_div_cancel']
    exact hdvd
  show (chunkList 8 ((((b32encodeChars bs).map charToSym).map (natToBits 5)).flatten.take
      (8 * (5 * (b32encodeChars bs).length / 8)))).map bitsToNat = bs
  rw [hbits, h5s]
  have hq : (8 * n + p) / 8 = n := by omega
  rw [hq]
  have htake : (bytesToBits bs ++ List.replicate p false).take (8 * n) = bytesToBits bs := by
    apply List.take_left'
    rw [length_bytesToBits]
  rw [htake]
  have hb : bytesToBits bs = (bs.map (natToBits 8)).flatten := rfl
  rw [hb, chunkList_of_full 8 (by omega)]
  · rw [List.map_map]
    have : bs.map (bitsToNat ∘ natToBits 8) = bs.map id := by
      apply List.map_congr_left
      intro x hx
      show bitsToNat (natToBits 8 x) = id x
      rw [bitsToNat_natToBits]
      exact Nat.mod_eq_of_lt (by have := h x hx; norm_num; omega)
    rw [this, List.map_id]
  · intro c hc
    rcases List.mem_map.mp hc with ⟨x, _, rfl⟩
    exact natToBits_length 8 x

theorem length_b32decodeChars (cs : List Char) :
    (b32decodeChars cs).length = 5 * cs.length / 8 := by
  show ((chunkList 8 ((((cs.map charToSym)).map (natToBits 5)).flatten.take
      (8 * (5 * cs.length / 8)))).map bitsToNat).length = _
  rw [List.length_map]
  have hbl : ((cs.map charToSym).map (natToBits 5)).flatten.length = 5 * cs.length := by
    rw [length_flatten_natToBits, List.length_map]
  have htl : (((cs.map charToSym).map (natToBits 5)).flatten.take
      (8 * (5 * cs.length / 8))).length = 8 * (5 * cs.length / 8) := by
    rw [List.length_take, hbl]
    have : 8 * (5 * cs.length / 8) ≤ 5 * cs.length := by
      rw [Nat.mul_comm]
      exact Nat.div_mul_le_self _ _
    omega
  rw [chunkList_length_of_dvd 8 (by omega)]
  · rw [htl, Nat.mul_div_cancel_left _ (by omega : 0 < 8)]
  · rw [htl]
    exact ⟨_, rfl⟩

theorem b32decodeChars_lt (cs : List Char) : ∀ x ∈ b32decodeChars cs, x < 256 := by
  intro x hx
  unfold b32decodeChars at hx
  simp only at hx
  rcases List.mem_map.mp hx with ⟨c, hc, rfl⟩
  have hlen := (mem_chunkList 8 (by omega) _ c hc).1
  calc bitsToNat c < 2 ^ c.length := bitsToNat_lt c
  _ ≤ 2 ^ 8 := Nat.pow_le_pow_right (by omega) hlen
  _ = 256 := by norm_num

theorem b32_encode_of_decode (cs : List Char) (hc : ∀ c ∈ cs, c ∈ b32alphabet)
    (h8 : 8 ∣ cs.length) : b32encodeChars (b32decodeChars cs) = cs := by
  set syms := cs.map charToSym with hsyms
  have hslt : ∀ s ∈ syms, s < 32 := by
    intro s hs
    rcases List.mem_map.mp hs with ⟨c, hcmem, rfl⟩
    exact charToSym_lt c (hc c hcmem)
  set bits := (syms.map (natToBits 5)).flatten with hbits
  have hblen : bits.length = 5 * cs.length := by
    rw [hbits, length_flatten_natToBits, hsyms, List.length_map]
  have h85 : 8 ∣ bits.length := by
    rw [hblen]
    rcases h8 with ⟨m, hm⟩
    exact ⟨5 * m, by rw [hm]; ring⟩
  have htake : 8 * (5 * cs.length / 8) = bits.length := by
    rw [hblen]
    rcases h8 with ⟨m, hm⟩
    rw [hm]
    have : 5 * (8 * m) = 8 * (5 * m) := by ring
    rw [this, Nat.mul_div_cancel_left _ (by omega : 0 < 8)]
  have hdec : b32decodeChars cs = (chunkList 8 bits).map bitsToNat := by
    show (chunkList 8 (bits.take (8 * (5 * cs.length / 8)))).map bitsToNat = _
    rw [htake, List.take_length]
  rw [hdec]
  set bytes := (chunkList 8 bits).map bitsToNat with hbytes
  have hbb : bytesToBits bytes = bits := by
    show ((((chunkList 8 bits).map bitsToNat)).map (natToBits 8)).flatten = bits
    rw [List.map_map]
    have hmm : (chunkList 8 bits).map (natToBits 8 ∘ bitsToNat) =
        (chunkList 8 bits).map id := by
      apply List.map_congr_left
      intro c hcm
      have hfull := chunkList_full 8 (by omega) bits h85 c hcm
      show natToBits 8 (bitsToNat c) = c
      rw [← hfull, natToBits_bitsToNat]
    rw [hmm, List.map_id, chunkList_flatten 8 (by omega)]
  have hbyteslen : 8 * bytes.length = bits.length := by
    rw [hbytes, List.length_map, chunkList_length_of_dvd 8 (by omega) bits h85,
      Nat.mul_div_cancel' h85]
  have hpad0 : pad5len (8 * bytes.length) = 0 := by
    apply pad5len_of_dvd
    rw [hbyteslen, hblen]
    exact ⟨cs.length, rfl⟩
  unfold b32encodeChars
  rw [hpad0, hbb]
  simp only [List.replicate_zero, List.append_nil]
  have hchunk : chunkList 5 bits = syms.map (natToBits 5) := by
    rw [hbits]
    apply chunkList_of_full 5 (by omega)
    intro c hcm
    rcases List.mem_map.mp hcm with ⟨s, _, rfl⟩
    exact natToBits_length 5 s
  rw [hchunk, List.map_map, List.map_map, hsyms, List.map_map]
  have hcomp : cs.map (((symToChar ∘ bitsToNat) ∘ natToBits 5) ∘ charToSym) = cs.map id := by
    apply List.map_congr_left
    intro c hcm
    show symToChar (bitsToNat (natToBits 5 (charToSym c))) = id c
    rw [bitsToNat_natToBits]
    have hlt : charToSym c % 2 ^ 5 = charToSym c :=
      Nat.mod_eq_of_lt (by have := charToSym_lt c (hc c hcm); norm_num; omega)
    rw [hlt]
    exact symToChar_charToSym c (hc c hcm)
  rw [hcomp, List.map_id]

end FEC

namespace FEC

/-! ### Lemmas: trimming, padding, digits, hex, CRC bound -/

theorem alphabet_ne_space : ∀ x ∈ b32alphabet, (x == ' ') = false := by decide

theorem dropWhile_replicate_append (p : Char → Bool) (c : Char) (hp : p c = true) :
    ∀ (k : Nat) (l : List Char),
      (List.replicate k c ++ l).dropWhile p = l.dropWhile p := by
  intro k
  induction k with
  | zero => intro l; rfl
  | succ k ih =>
    intro l
    rw [List.replicate_succ, List.cons_append, List.dropWhile_cons, hp]
    simp only [ite_true]
    exact ih l

theorem trimRight_of_last_ne_space (c : List Char) (w : Nat)
    (hc : ∀ x ∈ c, (x == ' ') = false) :
    trimRight (c ++ List.replicate w ' ') = c := by
  unfold trimRight
  rw [List.reverse_append, List.reverse_replicate,
    dropWhile_replicate_append _ ' ' (by decide)]
  cases hcr : c.reverse with
  | nil =>
    have : c = [] := by
      have := congrArg List.reverse hcr
      simpa using this
    simp [this]
  | cons x xs =>
    have hx : x ∈ c := by
      have : x ∈ c.reverse := by rw [hcr]; exact List.mem_cons_self x xs
      exact List.mem_reverse.mp this
    rw [List.dropWhile_cons, hc x hx]
    simp only [Bool.false_eq_true, ite_false]
    rw [← hcr, List.reverse_reverse]

theorem trimRight_padRight (w : Nat) (c : List Char)
    (hc : ∀ x ∈ c, (x == ' ') = false) : trimRight (padRight w c) = c :=
  trimRight_of_last_ne_space c _ hc

theorem length_padRight (w : Nat) (c : List Char) (h : c.length ≤ w) :
    (padRight w c).length = w := by
  unfold padRight
  rw [List.length_append, List.length_replicate]
  omega

theorem digitChar_isDigit (k : Nat) : (digitChar k).isDigit = true := by
  rcases k with _|_|_|_|_|_|_|_|_|k <;> rfl

theorem digitChar_ne_space (k : Nat) : ((digitChar k) == ' ') = false := by
  rcases k with _|_|_|_|_|_|_|_|_|k <;> rfl

theorem digitChar_toNat (k : Nat) (hk : k < 10) : (digitChar k).toNat = 48 + k := by
  rcases k with _|_|_|_|_|_|_|_|_|k
  · decide
  · decide
  · decide
  · decide
  · decide
  · decide
  · decide
  · decide
  · decide
  · have : k = 0 := by omega
    subst this; decide

theorem hexChar_isLowerHex (k : Nat) : isLowerHex (hexChar k) = true := by
  rcases k with _|_|_|_|_|_|_|_|_|_|_|_|_|_|_|k <;> rfl

theorem hexVal_hexChar (k : Nat) (hk : k < 16) : hexVal (hexChar k) = k := by
  rcases k with _|_|_|_|_|_|_|_|_|_|_|_|_|_|_|k
  · decide
  · decide
  · decide
  · decide
  · decide
  · decide
  · decide
  · decide
  · decide
  · decide
  · decide
  · decide
  · decide
  · decide
  · decide
  · have : k = 0 := by omega
    subst this; decide

theorem interpHex_toHex8 (n : Nat) (h : n < 4294967296) : interpHex (toHex8 n) = n := by
  unfold toHex8 interpHex
  rw [List.foldl_cons, List.foldl_cons, List.foldl_cons, List.foldl_cons,
    List.foldl_cons, List.foldl_cons, List.foldl_cons, List.foldl_cons, List.foldl_nil]
  rw [hexVal_hexChar _ (Nat.mod_lt _ (by omega)), hexVal_hexChar _ (Nat.mod_lt _ (by omega)),
    hexVal_hexChar _ (Nat.mod_lt _ (by omega)), hexVal_hexChar _ (Nat.mod_lt _ (by omega)),
    hexVal_hexChar _ (Nat.mod_lt _ (by omega)), hexVal_hexChar _ (Nat.mod_lt _ (by omega)),
    hexVal_hexChar _ (Nat.mod_lt _ (by omega)), hexVal_hexChar _ (Nat.mod_lt _ (by omega))]
  omega

theorem toHex8_inj (a b : Nat) (ha : a < 4294967296) (hb : b < 4294967296)
    (h : toHex8 a = toHex8 b) : a = b := by
  rw [← interpHex_toHex8 a ha, ← interpHex_toHex8 b hb, h]

theorem toHex8_length (n : Nat) : (toHex8 n).length = 8 := rfl

theorem crcStep_lt (c : Nat) (h : c < 4294967296) : crcStep c < 4294967296 := by
  have h32 : (4294967296 : Nat) = 2 ^ 32 := by norm_num
  unfold crcStep
  split
  · rw [h32]
    exact Nat.xor_lt_two_pow (by rw [← h32]; omega) (by rw [← h32]; norm_num)
  · omega

theorem repeat_crcStep_lt (n x : Nat) (h : x < 4294967296) :
    Nat.repeat crcStep n x < 4294967296 := by
  induction n with
  | zero => exact h
  | succ n ih =>
    show crcStep (Nat.repeat crcStep n x) < 4294967296
    exact crcStep_lt _ ih

theorem crcByte_lt (c b : Nat) (hc : c < 4294967296) (hb : b < 4294967296) :
    crcByte c b < 4294967296 := by
  have h32 : (4294967296 : Nat) = 2 ^ 32 := by norm_num
  unfold crcByte
  apply repeat_crcStep_lt
  rw [h32]
  exact Nat.xor_lt_two_pow (by rw [← h32]; omega) (by rw [← h32]; omega)

theorem char_toNat_lt (c : Char) : c.toNat < 4294967296 := by
  have := c.val.toNat_lt
  simpa [Char.toNat] using this

theorem crc32_lt (bytes : List Nat) (hb : ∀ x ∈ bytes, x < 4294967296) :
    crc32 bytes < 4294967296 := by
  unfold crc32
  have hfold : ∀ (l : List Nat) (a : Nat), (∀ x ∈ l, x < 4294967296) → a < 4294967296 →
      l.foldl crcByte a < 4294967296 := by
    intro l
    induction l with
    | nil => intro a _ ha; exact ha
    | cons x xs ih =>
      intro a hl ha
      rw [List.foldl_cons]
      exact ih _ (fun y hy => hl y (by simp [hy])) (crcByte_lt a x ha (hl x (by simp)))
  have h1 := hfold bytes 4294967295 hb (by norm_num)
  have h32 : (4294967296 : Nat) = 2 ^ 32 := by norm_num
  rw [h32]
  exact Nat.xor_lt_two_pow (by rw [← h32]; exact h1) (by rw [← h32]; norm_num)

theorem crcOfChars_lt (l : List Char) : crcOfChars l < 4294967296 := by
  unfold crcOfChars
  apply crc32_lt
  intro x hx
  rcases List.mem_map.mp hx with ⟨c, _, rfl⟩
  exact char_toNat_lt c

end FEC

namespace FEC

/-! ### Lemmas: decimal rendering -/

theorem interpDigits_foldl (l : List Char) (a : Nat) :
    l.foldl (fun x c => 10 * x + digitVal c) a = a * 10 ^ l.length + interpDigits l := by
  induction l generalizing a with
  | nil => simp [interpDigits]
  | cons c l ih =>
    show l.foldl _ (10 * a + digitVal c) = _
    rw [ih]
    have hb : interpDigits (c :: l) = (10 * 0 + digitVal c) * 10 ^ l.length + interpDigits l := by
      show l.foldl _ (10 * 0 + digitVal c) = _
      rw [ih]
    rw [hb]
    simp [List.length_cons]
    ring

theorem interpDigits_append (l1 l2 : List Char) :
    interpDigits (l1 ++ l2) = interpDigits l1 * 10 ^ l2.length + interpDigits l2 := by
  show (l1 ++ l2).foldl _ 0 = _
  rw [List.foldl_append, interpDigits_foldl]
  rfl

theorem interpDigits_replicate_zero (k : Nat) :
    interpDigits (List.replicate k '0') = 0 := by
  induction k with
  | zero => rfl
  | succ k ih =>
    rw [List.replicate_succ]
    show (List.replicate k '0').foldl _ (10 * 0 + digitVal '0') = 0
    have : 10 * 0 + digitVal '0' = 0 := by decide
    rw [this]
    exact ih

theorem interpDigits_padZeros (k : Nat) (ds : List Char) :
    interpDigits (padZeros k ds) = interpDigits ds := by
  unfold padZeros
  rw [interpDigits_append, interpDigits_replicate_zero]
  ring_nf

theorem interpDigits_singleton_digitChar (n : Nat) (h : n < 10) :
    interpDigits [digitChar n] = n := by
  show List.foldl _ 0 [digitChar n] = n
  rw [List.foldl_cons, List.foldl_nil]
  unfold digitVal
  rw [digitChar_toNat n h]
  omega

theorem natDigitsAux_interp : ∀ (fuel n : Nat), n ≤ fuel →
    interpDigits (natDigitsAux fuel n) = n := by
  intro fuel
  induction fuel with
  | zero =>
    intro n h
    have : n = 0 := by omega
    subst this
    decide
  | succ fuel ih =>
    intro n h
    show interpDigits
      (if n < 10 then [digitChar n] else natDigitsAux fuel (n / 10) ++ [digitChar (n % 10)]) = n
    split
    · next hlt => exact interpDigits_singleton_digitChar n hlt
    · next hge =>
      rw [interpDigits_append]
      have h10 : n / 10 ≤ fuel := by
        have : n / 10 < n := Nat.div_lt_self (by omega) (by omega)
        omega
      rw [ih _ h10, interpDigits_singleton_digitChar _ (Nat.mod_lt _ (by omega)),
        List.length_singleton, pow_one]
      omega

theorem natDigits_interp (n : Nat) : interpDigits (natDigits n) = n :=
  natDigitsAux_interp n n (Nat.le_refl n)

theorem natDigitsAux_digit : ∀ (fuel n : Nat), ∀ c ∈ natDigitsAux fuel n,
    c.isDigit = true ∧ (c == ' ') = false := by
  intro fuel
  induction fuel with
  | zero =>
    intro n c hc
    rcases List.mem_singleton.mp hc with rfl
    exact ⟨digitChar_isDigit _, digitChar_ne_space _⟩
  | succ fuel ih =>
    intro n c hc
    rw [show natDigitsAux (fuel + 1) n =
      (if n < 10 then [digitChar n] else natDigitsAux fuel (n / 10) ++ [digitChar (n % 10)])
      from rfl] at hc
    split at hc
    · rcases List.mem_singleton.mp hc with rfl
      exact ⟨digitChar_isDigit _, digitChar_ne_space _⟩
    · rcases List.mem_append.mp hc with h1 | h1
      · exact ih _ c h1
      · rcases List.mem_singleton.mp h1 with rfl
        exact ⟨digitChar_isDigit _, digitChar_ne_space _⟩

theorem natDigits_digit (n : Nat) : ∀ c ∈ natDigits n,
    c.isDigit = true ∧ (c == ' ') = false :=
  natDigitsAux_digit n n

theorem length_natDigitsAux_pos : ∀ (fuel n : Nat), 0 < (natDigitsAux fuel n).length := by
  intro fuel n
  cases fuel with
  | zero => simp [natDigitsAux]
  | succ fuel =>
    show 0 < (if n < 10 then [digitChar n]
      else natDigitsAux fuel (n / 10) ++ [digitChar (n % 10)]).length
    split
    · simp
    · rw [List.length_append]; simp

theorem length_natDigitsAux_le : ∀ (fuel n k : Nat), n ≤ fuel → n < 10 ^ k → 0 < k →
    (natDigitsAux fuel n).length ≤ k := by
  intro fuel
  induction fuel with
  | zero =>
    intro n k h _ hkpos
    have : n = 0 := by omega
    subst this
    simp [natDigitsAux]
    omega
  | succ fuel ih =>
    intro n k h hk hkpos
    show (if n < 10 then [digitChar n]
      else natDigitsAux fuel (n / 10) ++ [digitChar (n % 10)]).length ≤ k
    split
    · simp
      omega
    · next hge =>
      rw [List.length_append, List.length_singleton]
      cases k with
      | zero => omega
      | succ k1 =>
        cases k1 with
        | zero =>
          rw [pow_one] at hk
          omega
        | succ k2 =>
          have hdivlt : n / 10 < 10 ^ (k2 + 1) := by
            have hmul : 10 ^ (k2 + 1 + 1) = 10 ^ (k2 + 1) * 10 := by rw [pow_succ]
            rw [hmul] at hk
            exact (Nat.div_lt_iff_lt_mul (by omega)).mpr hk
          have := ih (n / 10) (k2 + 1)
            (by
              have : n / 10 < n := Nat.div_lt_self (by omega) (by omega)
              omega)
            hdivlt (by omega)
          omega

theorem length_natDigits_le (n k : Nat) (h : n < 10 ^ k) (hk : 0 < k) :
    (natDigits n).length ≤ k :=
  length_natDigitsAux_le n n k (Nat.le_refl n) h hk

theorem length_pad6 (n : Nat) (h : n < 1000000) : (pad6 n).length = 6 := by
  unfold pad6 padZeros
  rw [List.length_append, List.length_replicate]
  have h6 : (natDigits n).length ≤ 6 := by
    apply length_natDigits_le n 6 _ (by omega)
    norm_num
    omega
  omega

theorem pad6_digit (n : Nat) : ∀ c ∈ pad6 n, c.isDigit = true ∧ (c == ' ') = false := by
  intro c hc
  unfold pad6 padZeros at hc
  rcases List.mem_append.mp hc with h1 | h1
  · rcases List.eq_of_mem_replicate h1 with rfl
    exact ⟨by decide, by decide⟩
  · exact natDigits_digit n c h1

theorem pad5_digit (n : Nat) : ∀ c ∈ pad5 n, c.isDigit = true ∧ (c == ' ') = false := by
  intro c hc
  unfold pad5 padZeros at hc
  rcases List.mem_append.mp hc with h1 | h1
  · rcases List.eq_of_mem_replicate h1 with rfl
    exact ⟨by decide, by decide⟩
  · exact natDigits_digit n c h1

theorem interp_pad6 (n : Nat) : interpDigits (pad6 n) = n := by
  unfold pad6
  rw [interpDigits_padZeros, natDigits_interp]

theorem interp_pad5 (n : Nat) : interpDigits (pad5 n) = n := by
  unfold pad5
  rw [interpDigits_padZeros, natDigits_interp]

theorem pad6_ne_nil (n : Nat) : pad6 n ≠ [] := by
  intro hcon
  have hlen := congrArg List.length hcon
  unfold pad6 padZeros at hlen
  rw [List.length_append, List.length_replicate, List.length_nil] at hlen
  have hpos := length_natDigitsAux_pos n n
  have heq : (natDigits n).length = (natDigitsAux n n).length := rfl
  omega

theorem pad5_ne_nil (n : Nat) : pad5 n ≠ [] := by
  intro hcon
  have hlen := congrArg List.length hcon
  unfold pad5 padZeros at hlen
  rw [List.length_append, List.length_replicate, List.length_nil] at hlen
  have hpos := length_natDigitsAux_pos n n
  have heq : (natDigits n).length = (natDigitsAux n n).length := rfl
  omega

end FEC

namespace FEC

/-! ### Lemmas: line shape and parsing -/

theorem takeWhile_append_stop (p : Char → Bool) (l1 : List Char) (x : Char) (l2 : List Char)
    (h1 : ∀ c ∈ l1, p c = true) (hx : p x = false) :
    (l1 ++ x :: l2).takeWhile p = l1 := by
  induction l1 with
  | nil =>
    rw [List.nil_append, List.takeWhile_cons, hx]
    rfl
  | cons c cs ih =>
    rw [List.cons_append, List.takeWhile_cons, h1 c (by simp)]
    simp only [ite_true]
    rw [ih (fun d hd => h1 d (by simp [hd]))]

theorem drop_tag_space (tag rest : List Char) :
    (tag ++ ' ' :: rest).drop (tag.length + 1) = rest := by
  have h : tag ++ ' ' :: rest = (tag ++ [' ']) ++ rest := by simp
  rw [h]
  apply List.drop_left'
  rw [List.length_append, List.length_singleton]

theorem length_xorBytes (a : List Nat) : ∀ (b : List Nat),
    (xorBytes a b).length = max a.length b.length := by
  induction a with
  | nil => intro b; simp [xorBytes]
  | cons x xs ih =>
    intro b
    cases b with
    | nil => simp [xorBytes]
    | cons y ys =>
      show ((x ^^^ y) :: xorBytes xs ys).length = _
      rw [List.length_cons, ih ys]
      simp only [List.length_cons]
      omega

theorem length_xorAll_le (B : Nat) : ∀ (ls : List (List Nat)),
    (∀ l ∈ ls, l.length ≤ B) → (xorAll ls).length ≤ B := by
  intro ls
  induction ls with
  | nil => intro _; simp [xorAll]
  | cons l rest ih =>
    intro h
    show (xorBytes l (xorAll rest)).length ≤ B
    rw [length_xorBytes]
    have h1 := h l (by simp)
    have h2 := ih (fun d hd => h d (by simp [hd]))
    omega

theorem length_parityBytesOf_le (w : Nat) (chunks : List (List Char))
    (hw : ∀ c ∈ chunks, c.length ≤ w) :
    (parityBytesOf chunks).length ≤ 5 * w / 8 := by
  unfold parityBytesOf
  apply length_xorAll_le
  intro l hl
  rcases List.mem_map.mp hl with ⟨c, hc, rfl⟩
  rw [length_b32decodeChars]
  exact Nat.div_le_div_right (Nat.mul_le_mul_left 5 (hw c hc))

theorem length_parityChunk_le (w : Nat) (chunks : List (List Char))
    (hw : ∀ c ∈ chunks, c.length ≤ w) :
    (parityChunk chunks).length ≤ w := by
  unfold parityChunk
  rw [length_b32encodeChars]
  have h1 := length_parityBytesOf_le w chunks hw
  have h2 : 8 * (parityBytesOf chunks).length ≤ 5 * w := by
    calc 8 * (parityBytesOf chunks).length ≤ 8 * (5 * w / 8) :=
      Nat.mul_le_mul_left 8 h1
    _ ≤ 5 * w := by
      rw [Nat.mul_comm]
      exact Nat.div_mul_le_self _ _
  have h3 := pad5len_lt (8 * (parityBytesOf chunks).length)
  omega

theorem mem_xorBytes_lt (a : List Nat) : ∀ (b : List Nat),
    (∀ y ∈ a, y < 256) → (∀ y ∈ b, y < 256) → ∀ x ∈ xorBytes a b, x < 256 := by
  induction a with
  | nil => intro b _ hb x hx; exact hb x hx
  | cons p ps ih =>
    intro b ha hb x hx
    cases b with
    | nil => exact ha x hx
    | cons q qs =>
      rcases List.mem_cons.mp hx with h1 | h1
      · subst h1
        have hp := ha p (by simp)
        have hq := hb q (by simp)
        have h256 : (256 : Nat) = 2 ^ 8 := by norm_num
        rw [h256]
        exact Nat.xor_lt_two_pow (by omega) (by omega)
      · exact ih qs (fun y hy => ha y (by simp [hy])) (fun y hy => hb y (by simp [hy])) x h1

theorem xorAll_lt (ls : List (List Nat)) (h : ∀ l ∈ ls, ∀ x ∈ l, x < 256) :
    ∀ x ∈ xorAll ls, x < 256 := by
  induction ls with
  | nil => intro x hx; simp [xorAll] at hx
  | cons l rest ih =>
    intro x hx
    exact mem_xorBytes_lt l (xorAll rest) (h l (by simp))
      (ih (fun d hd => h d (by simp [hd]))) x hx

theorem parityBytesOf_lt (chunks : List (List Char)) :
    ∀ x ∈ parityBytesOf chunks, x < 256 :=
  xorAll_lt _ (fun l hl => by
    rcases List.mem_map.mp hl with ⟨c, _, rfl⟩
    exact b32decodeChars_lt c)

end FEC

namespace FEC

theorem bne_space_of_beq_false {c : Char} (h : (c == ' ') = false) : (c != ' ') = true := by
  simp [bne, h]

theorem isEmpty_pad6 (n : Nat) : (pad6 n).isEmpty = false := by
  cases h : (pad6 n).isEmpty
  · rfl
  · exact absurd (List.isEmpty_iff.mp h) (pad6_ne_nil n)

theorem isEmpty_pad5 (n : Nat) : (pad5 n).isEmpty = false := by
  cases h : (pad5 n).isEmpty
  · rfl
  · exact absurd (List.isEmpty_iff.mp h) (pad5_ne_nil n)

theorem checkDataLine_wf (w idx : Nat) (payload csum : List Char)
    (hplen : payload.length = w) (hcsum : csum.length = 8) :
    checkDataLine w idx (pad6 idx ++ ' ' :: (payload ++ ' ' :: csum)) =
      some (trimRight payload, toHex8 (crcOfChars (trimRight payload)) == csum) := by
  have htag : (pad6 idx ++ ' ' :: (payload ++ ' ' :: csum)).takeWhile (fun c => c != ' ')
      = pad6 idx := by
    apply takeWhile_append_stop
    · intro c hc
      exact bne_space_of_beq_false (pad6_digit idx c hc).2
    · decide
  have hall : (pad6 idx).all Char.isDigit = true :=
    List.all_eq_true.mpr fun c hc => (pad6_digit idx c hc).1
  have hinterp : (interpDigits (pad6 idx) == idx) = true := by
    rw [interp_pad6]; simp
  have hlen : ((payload ++ ' ' :: csum).length == w + 9) = true := by
    rw [List.length_append, List.length_cons, hcsum, hplen]; simp
  have hgd : ((payload ++ ' ' :: csum).getD w 'x' == ' ') = true := by
    rw [← hplen, List.getD_append_right _ _ _ _ (Nat.le_refl _), Nat.sub_self]
    simp
  have htake : (payload ++ ' ' :: csum).take w = payload := List.take_left' hplen
  have hdropc : (payload ++ ' ' :: csum).drop (w + 1) = csum := by
    rw [← hplen]
    exact drop_tag_space payload csum
  simp only [checkDataLine]
  rw [htag, drop_tag_space, hall, isEmpty_pad6, hinterp, hlen, hgd, htake, hdropc]
  simp

theorem checkParityLine_wf (w gIdx : Nat) (payload csum : List Char)
    (hplen : payload.length = w) (hcsum : csum.length = 8) :
    checkParityLine w gIdx ('P' :: pad5 gIdx ++ ' ' :: (payload ++ ' ' :: csum)) =
      some (trimRight payload, toHex8 (crcOfChars (trimRight payload)) == csum) := by
  have hline : 'P' :: pad5 gIdx ++ ' ' :: (payload ++ ' ' :: csum)
      = ('P' :: pad5 gIdx) ++ ' ' :: (payload ++ ' ' :: csum) := rfl
  have htag : (('P' :: pad5 gIdx) ++ ' ' :: (payload ++ ' ' :: csum)).takeWhile
      (fun c => c != ' ') = 'P' :: pad5 gIdx := by
    apply takeWhile_append_stop
    · intro c hc
      rcases List.mem_cons.mp hc with h1 | h1
      · subst h1; decide
      · exact bne_space_of_beq_false (pad5_digit gIdx c h1).2
    · decide
  have hall : (pad5 gIdx).all Char.isDigit = true :=
    List.all_eq_true.mpr fun c hc => (pad5_digit gIdx c hc).1
  have hinterp : (interpDigits (pad5 gIdx) == gIdx) = true := by
    rw [interp_pad5]; simp
  have hlen : ((payload ++ ' ' :: csum).length == w + 9) = true := by
    rw [List.length_append, List.length_cons, hcsum, hplen]; simp
  have hgd : ((payload ++ ' ' :: csum).getD w 'x' == ' ') = true := by
    rw [← hplen, List.getD_append_right _ _ _ _ (Nat.le_refl _), Nat.sub_self]
    simp
  have htake : (payload ++ ' ' :: csum).take w = payload := List.take_left' hplen
  have hdropc : (payload ++ ' ' :: csum).drop (w + 1) = csum := by
    rw [← hplen]
    exact drop_tag_space payload csum
  simp only [checkParityLine]
  rw [hline, htag, drop_tag_space]
  show (if (('P' == 'P') && (pad5 gIdx).all Char.isDigit && !(pad5 gIdx).isEmpty
      && (interpDigits (pad5 gIdx) == gIdx) && ((payload ++ ' ' :: csum).length == w + 9)
      && ((payload ++ ' ' :: csum).getD w 'x' == ' ')) = true then
    some (trimRight ((payload ++ ' ' :: csum).take w),
      toHex8 (crcOfChars (trimRight ((payload ++ ' ' :: csum).take w)))
        == (payload ++ ' ' :: csum).drop (w + 1))
    else none) = some (trimRight payload, toHex8 (crcOfChars (trimRight payload)) == csum)
  rw [hall, isEmpty_pad5, hinterp, hlen, hgd, htake, hdropc]
  simp

theorem replacePayload_wf (w : Nat) (tag payload csum garb : List Char)
    (htagne : ∀ c ∈ tag, (c != ' ') = true) (hplen : payload.length = w) :
    replacePayload w (tag ++ ' ' :: (payload ++ ' ' :: csum)) garb
      = tag ++ ' ' :: (garb ++ ' ' :: csum) := by
  have hsplit : tag ++ ' ' :: (payload ++ ' ' :: csum)
      = ((tag ++ [' ']) ++ payload) ++ (' ' :: csum) := by simp
  have hdrop : (tag ++ ' ' :: (payload ++ ' ' :: csum)).drop (tag.length + 1 + w)
      = ' ' :: csum := by
    rw [hsplit]
    apply List.drop_left'
    rw [List.length_append, List.length_append, List.length_singleton, hplen]
  unfold replacePayload
  rw [takeWhile_append_stop _ _ _ _ htagne (by decide)]
  show tag ++ ' ' :: (garb ++ (tag ++ ' ' :: (payload ++ ' ' :: csum)).drop (tag.length + 1 + w))
      = tag ++ ' ' :: (garb ++ ' ' :: csum)
  rw [hdrop]

end FEC

namespace FEC

/-! ### Lemmas: decoding a pristine group and stream -/

theorem checkDataLine_mkDataLine (w idx : Nat) (chunk : List Char)
    (hlen : chunk.length ≤ w) (halpha : ∀ x ∈ chunk, (x == ' ') = false) :
    checkDataLine w idx (mkDataLine w idx chunk) = some (chunk, true) := by
  unfold mkDataLine
  rw [checkDataLine_wf w idx _ _ (length_padRight w chunk hlen) (toHex8_length _)]
  rw [trimRight_padRight w chunk halpha]
  simp

theorem checkParityLine_mkParityLine (w gIdx : Nat) (chunks : List (List Char))
    (hw : ∀ c ∈ chunks, c.length ≤ w) :
    checkParityLine w gIdx (mkParityLine w gIdx chunks) = some (parityChunk chunks, true) := by
  unfold mkParityLine
  rw [checkParityLine_wf w gIdx _ _
    (length_padRight w _ (length_parityChunk_le w chunks hw)) (toHex8_length _)]
  have htr : trimRight (padRight w (parityChunk chunks)) = parityChunk chunks :=
    trimRight_padRight w _ (fun x hx => alphabet_ne_space x (mem_b32encodeChars _ x hx))
  rw [htr]
  simp

theorem parseDatas_dataLines (w : Nat) : ∀ (chunks : List (List Char)) (cIdx : Nat),
    (∀ c ∈ chunks, c.length ≤ w ∧ ∀ x ∈ c, (x == ' ') = false) →
    parseDatas w (cIdx + 1) (dataLines w cIdx chunks) =
      some (chunks.map (fun c => (c, true))) := by
  intro chunks
  induction chunks with
  | nil => intro cIdx _; rfl
  | cons c rest ih =>
    intro cIdx h
    show parseDatas w (cIdx + 1)
      (mkDataLine w (cIdx + 1) c :: dataLines w (cIdx + 1) rest) = _
    have hc := h c (by simp)
    show (match checkDataLine w (cIdx + 1) (mkDataLine w (cIdx + 1) c),
        parseDatas w (cIdx + 1 + 1) (dataLines w (cIdx + 1) rest) with
      | some p, some ps => some (p :: ps)
      | _, _ => none) = _
    rw [checkDataLine_mkDataLine w (cIdx + 1) c hc.1 hc.2,
      ih (cIdx + 1) (fun d hd => h d (by simp [hd]))]
    rfl

theorem badIdx_allTrue : ∀ (ps : List (List Char × Bool)) (i : Nat),
    (∀ p ∈ ps, p.2 = true) → badIdx i ps = [] := by
  intro ps
  induction ps with
  | nil => intro i _; rfl
  | cons p rest ih =>
    intro i h
    show (if p.2 then badIdx (i + 1) rest else i :: badIdx (i + 1) rest) = []
    rw [h p (by simp)]
    simp only [ite_true]
    exact ih (i + 1) (fun q hq => h q (by simp [hq]))

theorem map_fst_map_true (chunks : List (List Char)) :
    (chunks.map (fun c => (c, true))).map Prod.fst = chunks := by
  rw [List.map_map]
  have : chunks.map (Prod.fst ∘ fun c => (c, true)) = chunks.map id := by
    apply List.map_congr_left
    intro c _
    rfl
  rw [this, List.map_id]

theorem decodeGroup_encGroup (w gIdx cIdx : Nat) (chunks : List (List Char))
    (hside : ∀ c ∈ chunks, c.length ≤ w ∧ ∀ x ∈ c, (x == ' ') = false) :
    decodeGroup w gIdx cIdx (encGroup w gIdx cIdx chunks) = .ok chunks.flatten := by
  unfold decodeGroup encGroup
  rw [List.getLast?_concat, List.dropLast_concat]
  show (match parseDatas w (cIdx + 1) (dataLines w cIdx chunks),
      checkParityLine w gIdx (mkParityLine w gIdx chunks) with
    | some ps, some pp =>
      match badIdx 0 ps with
      | [] => DRes.ok ((ps.map Prod.fst).flatten)
      | [j] =>
        if pp.2 then
          DRes.ok (((ps.map Prod.fst).set j (b32encodeChars (recoverBytes ps j pp.1))).flatten)
        else DRes.error (DecErr.CorruptionError gIdx)
      | _ => DRes.error (DecErr.CorruptionError gIdx)
    | _, _ => DRes.error DecErr.FormatError) = DRes.ok chunks.flatten
  rw [parseDatas_dataLines w chunks cIdx hside,
    checkParityLine_mkParityLine w gIdx chunks (fun c hc => (hside c hc).1)]
  show (match badIdx 0 (chunks.map (fun c => (c, true))) with
    | [] => DRes.ok (((chunks.map (fun c => (c, true))).map Prod.fst).flatten)
    | [j] =>
      if (parityChunk chunks, true).2 then
        DRes.ok ((((chunks.map (fun c => (c, true))).map Prod.fst).set j
          (b32encodeChars (recoverBytes (chunks.map (fun c => (c, true))) j
            (parityChunk chunks, true).1))).flatten)
      else DRes.error (DecErr.CorruptionError gIdx)
    | _ => DRes.error (DecErr.CorruptionError gIdx)) = DRes.ok chunks.flatten
  rw [badIdx_allTrue _ 0 (by
    intro p hp
    rcases List.mem_map.mp hp with ⟨c, _, rfl⟩
    rfl)]
  rw [map_fst_map_true]

theorem length_dataLines (w : Nat) : ∀ (chunks : List (List Char)) (cIdx : Nat),
    (dataLines w cIdx chunks).length = chunks.length := by
  intro chunks
  induction chunks with
  | nil => intro cIdx; rfl
  | cons c rest ih =>
    intro cIdx
    show (mkDataLine w (cIdx + 1) c :: dataLines w (cIdx + 1) rest).length = _
    rw [List.length_cons, ih, List.length_cons]

theorem length_encGroup (w gIdx cIdx : Nat) (chunks : List (List Char)) :
    (encGroup w gIdx cIdx chunks).length = chunks.length + 1 := by
  unfold encGroup
  rw [List.length_append, length_dataLines, List.length_singleton]

theorem encGroup_ne_nil (w gIdx cIdx : Nat) (chunks : List (List Char)) :
    encGroup w gIdx cIdx chunks ≠ [] := by
  intro h
  have := congrArg List.length h
  rw [length_encGroup] at this
  simp at this

theorem chunkList_encGroups (w g : Nat) (hg : 0 < g) :
    ∀ (grps : List (List (List Char))) (gIdx cIdx : Nat), ChunkedBy g grps →
      chunkList (g + 1) (encGroups w gIdx cIdx grps) = encPieces w gIdx cIdx grps := by
  intro grps
  induction grps with
  | nil => intro gIdx cIdx _; rfl
  | cons grp rest ih =>
    intro gIdx cIdx h
    show chunkList (g + 1) (encGroup w gIdx cIdx grp ++ encGroups w (gIdx + 1) (cIdx + grp.length) rest)
      = encGroup w gIdx cIdx grp :: encPieces w (gIdx + 1) (cIdx + grp.length) rest
    cases rest with
    | nil =>
      rw [chunkedBy_singleton] at h
      show chunkList (g + 1) (encGroup w gIdx cIdx grp ++ []) = [encGroup w gIdx cIdx grp]
      rw [List.append_nil]
      apply chunkList_short (g + 1) (by omega) _ (encGroup_ne_nil w gIdx cIdx grp)
      rw [length_encGroup]
      omega
    | cons grp2 rest2 =>
      rw [chunkedBy_cons2] at h
      rw [chunkList_append_full (g + 1) (by omega) _ _ (by rw [length_encGroup, h.1]),
        ih (gIdx + 1) (cIdx + grp.length) h.2]

theorem decodeGroups_encPieces (w : Nat) :
    ∀ (grps : List (List (List Char))) (gIdx cIdx : Nat),
      (∀ grp ∈ grps, ∀ c ∈ grp, c.length ≤ w ∧ ∀ x ∈ c, (x == ' ') = false) →
      decodeGroups w gIdx cIdx (encPieces w gIdx cIdx grps) = .ok grps.flatten.flatten := by
  intro grps
  induction grps with
  | nil => intro gIdx cIdx _; rfl
  | cons grp rest ih =>
    intro gIdx cIdx h
    show (match decodeGroup w gIdx cIdx (encGroup w gIdx cIdx grp) with
      | .error e => .error e
      | .ok t =>
        match decodeGroups w (gIdx + 1) (cIdx + ((encGroup w gIdx cIdx grp).length - 1))
            (encPieces w (gIdx + 1) (cIdx + grp.length) rest) with
        | .error e => .error e
        | .ok ts => .ok (t ++ ts)) = DRes.ok ((grp :: rest).flatten.flatten)
    rw [decodeGroup_encGroup w gIdx cIdx grp (h grp (by simp))]
    rw [length_encGroup]
    have hlm : grp.length + 1 - 1 = grp.length := by omega
    rw [hlm, ih (gIdx + 1) (cIdx + grp.length) (fun d hd => h d (by simp [hd]))]
    show DRes.ok (grp.flatten ++ rest.flatten.flatten) = _
    rw [List.flatten_cons, List.flatten_append]

theorem encode_side_conditions (b : List Nat) (width group_size : Nat) (hw : 0 < width)
    (hg : 0 < group_size) :
    ∀ grp ∈ streamGroups b width group_size, ∀ c ∈ grp,
      c.length ≤ width ∧ ∀ x ∈ c, (x == ' ') = false := by
  intro grp hgrp c hc
  have hcs : c ∈ streamChunks b width :=
    mem_of_mem_chunkList group_size hg _ grp hgrp c hc
  constructor
  · exact (mem_chunkList width hw _ c hcs).1
  · intro x hx
    have hxs : x ∈ b32encodeChars b := mem_of_mem_chunkList width hw _ c hcs x hx
    exact alphabet_ne_space x (mem_b32encodeChars b x hxs)

/-- C1: for every byte string (each byte below 256) and every positive width
and group size, decoding the encoder's output returns exactly the input. -/
theorem C1_round_trip (b : List Nat) (width group_size : Nat) (hw : 0 < width)
    (hg : 0 < group_size) (hb : ∀ x ∈ b, x < 256) :
    decode (encode b width group_size) width group_size = DRes.ok b := by
  unfold decode encode
  have h1 : ChunkedBy group_size (streamGroups b width group_size) := by
    unfold streamGroups
    exact chunkedBy_chunkList group_size hg (streamChunks b width)
  rw [chunkList_encGroups width group_size hg _ 0 0 h1,
    decodeGroups_encPieces width _ 0 0 (encode_side_conditions b width group_size hw hg)]
  show DRes.ok (b32decodeChars ((streamGroups b width group_size).flatten.flatten)) = _
  unfold streamGroups
  rw [chunkList_flatten group_size hg (streamChunks b width)]
  unfold streamChunks
  rw [chunkList_flatten width hw (b32encodeChars b)]
  rw [b32_roundtrip b hb]

end FEC

namespace FEC

/-! ### C5: empty input -/

/-- C5: encoding the empty byte string, for every width and group size,
produces zero chunks, zero groups and zero lines, and no error. -/
theorem C5_empty_input (width group_size : Nat) :
    encode [] width group_size = [] ∧ streamChunks [] width = [] ∧
      streamGroups [] width group_size = [] :=
  ⟨rfl, rfl, rfl⟩

/-! ### XOR parity algebra -/

theorem xorBytes_nil_right (a : List Nat) : xorBytes a [] = a := by
  cases a <;> rfl

theorem xorBytes_nil_left (a : List Nat) : xorBytes [] a = a := rfl

theorem xorBytes_comm (a : List Nat) : ∀ (b : List Nat), xorBytes a b = xorBytes b a := by
  induction a with
  | nil => intro b; rw [xorBytes_nil_left, xorBytes_nil_right]
  | cons x xs ih =>
    intro b
    cases b with
    | nil => rfl
    | cons y ys =>
      show (x ^^^ y) :: xorBytes xs ys = (y ^^^ x) :: xorBytes ys xs
      rw [Nat.xor_comm, ih ys]

theorem xorBytes_assoc (a : List Nat) : ∀ (b c : List Nat),
    xorBytes (xorBytes a b) c = xorBytes a (xorBytes b c) := by
  induction a with
  | nil => intro b c; rw [xorBytes_nil_left, xorBytes_nil_left]
  | cons x xs ih =>
    intro b c
    cases b with
    | nil => rw [xorBytes_nil_right, xorBytes_nil_left]
    | cons y ys =>
      cases c with
      | nil => rw [xorBytes_nil_right, xorBytes_nil_right]
      | cons z zs =>
        show (x ^^^ y ^^^ z) :: xorBytes (xorBytes xs ys) zs
          = (x ^^^ (y ^^^ z)) :: xorBytes xs (xorBytes ys zs)
        rw [Nat.xor_assoc, ih ys zs]

theorem xorBytes_self (a : List Nat) : xorBytes a a = List.replicate a.length 0 := by
  induction a with
  | nil => rfl
  | cons x xs ih =>
    show (x ^^^ x) :: xorBytes xs xs = _
    rw [Nat.xor_self, ih, List.length_cons, List.replicate_succ]

theorem xorBytes_zeros (a : List Nat) : ∀ (n : Nat), n ≤ a.length →
    xorBytes a (List.replicate n 0) = a := by
  induction a with
  | nil =>
    intro n h
    have : n = 0 := by simpa using h
    subst this
    rfl
  | cons x xs ih =>
    intro n h
    cases n with
    | zero => rw [List.replicate_zero, xorBytes_nil_right]
    | succ n =>
      rw [List.replicate_succ]
      show (x ^^^ 0) :: xorBytes xs (List.replicate n 0) = _
      rw [Nat.xor_zero, ih n (by simp at h; omega)]

theorem foldl_xorBytes (ds : List (List Nat)) : ∀ (a : List Nat),
    ds.foldl (fun acc d => xorBytes acc d) a = xorBytes a (xorAll ds) := by
  induction ds with
  | nil => intro a; rw [List.foldl_nil]; exact (xorBytes_nil_right a).symm
  | cons d rest ih =>
    intro a
    rw [List.foldl_cons, ih]
    show xorBytes (xorBytes a d) (xorAll rest) = xorBytes a (xorBytes d (xorAll rest))
    rw [xorBytes_assoc]

theorem xorAll_eraseIdx : ∀ (ls : List (List Nat)) (r : Nat), r < ls.length →
    xorAll ls = xorBytes (ls.getD r []) (xorAll (ls.eraseIdx r)) := by
  intro ls
  induction ls with
  | nil => intro r h; simp at h
  | cons l rest ih =>
    intro r h
    cases r with
    | zero => rfl
    | succ r =>
      have hr : r < rest.length := by simp at h; omega
      show xorBytes l (xorAll rest) = xorBytes (rest.getD r []) (xorAll (l :: rest.eraseIdx r))
      rw [ih r hr]
      show xorBytes l (xorBytes (rest.getD r []) (xorAll (rest.eraseIdx r)))
        = xorBytes (rest.getD r []) (xorBytes l (xorAll (rest.eraseIdx r)))
      rw [← xorBytes_assoc, xorBytes_comm l (rest.getD r []), xorBytes_assoc]

theorem length_xorAll_eq : ∀ (ls : List (List Nat)),
    (xorAll ls).length = ls.foldr (fun d m => max d.length m) 0 := by
  intro ls
  induction ls with
  | nil => rfl
  | cons l rest ih =>
    show (xorBytes l (xorAll rest)).length = max l.length (rest.foldr _ 0)
    rw [length_xorBytes, ih]

/-! ### C4: parity invariant -/

/-- C4: in every group of an encoded stream, the parity payload decoded from
base-32 equals the byte-wise XOR of the data chunks' decoded byte strings
(shorter operands zero-padded on the right), and XOR-ing the parity's decoded
bytes with all the data chunks' decoded bytes yields the zero byte string of
the maximal operand length. -/
theorem C4_parity_invariant (b : List Nat) (width group_size : Nat) (hw : 0 < width)
    (hg : 0 < group_size) (hb : ∀ x ∈ b, x < 256) (grp : List (List Char))
    (hgrp : grp ∈ streamGroups b width group_size) :
    b32decodeChars (parityChunk grp) = xorAll (grp.map b32decodeChars) ∧
    (grp.map b32decodeChars).foldl (fun acc d => xorBytes acc d)
        (b32decodeChars (parityChunk grp)) =
      List.replicate ((grp.map b32decodeChars).foldr (fun d m => max d.length m) 0) 0 := by
  have h1 : b32decodeChars (parityChunk grp) = parityBytesOf grp :=
    b32_roundtrip _ (parityBytesOf_lt grp)
  constructor
  · rw [h1]; rfl
  · rw [h1, foldl_xorBytes]
    show xorBytes (xorAll (grp.map b32decodeChars)) (xorAll (grp.map b32decodeChars)) = _
    rw [xorBytes_self, length_xorAll_eq]

end FEC

namespace FEC

/-! ### C7: output ordering -/

theorem getD_mem {α : Type} (d : α) : ∀ (l : List α) (G : Nat), G < l.length →
    l.getD G d ∈ l := by
  intro l
  induction l with
  | nil => intro G h; simp at h
  | cons x xs ih =>
    intro G h
    cases G with
    | zero => simp
    | succ G =>
      have := ih G (by simp at h; omega)
      simp only [List.getD_cons_succ]
      exact List.mem_cons_of_mem x this

theorem chunkedBy_head_le {α : Type} (k : Nat) (c : List α) (rest : List (List α))
    (h : ChunkedBy k (c :: rest)) : c.length ≤ k := by
  cases rest with
  | nil => exact (chunkedBy_singleton k c).mp h |>.2
  | cons c2 rest2 => exact le_of_eq ((chunkedBy_cons2 k c c2 rest2).mp h).1

theorem length_encPieces (w : Nat) : ∀ (grps : List (List (List Char))) (gIdx cIdx : Nat),
    (encPieces w gIdx cIdx grps).length = grps.length := by
  intro grps
  induction grps with
  | nil => intro gIdx cIdx; rfl
  | cons grp rest ih =>
    intro gIdx cIdx
    show (encGroup w gIdx cIdx grp :: encPieces w (gIdx + 1) (cIdx + grp.length) rest).length = _
    rw [List.length_cons, ih, List.length_cons]

theorem encPieces_getD (w g : Nat) :
    ∀ (grps : List (List (List Char))) (gIdx cIdx G : Nat), ChunkedBy g grps →
      G < grps.length →
      (encPieces w gIdx cIdx grps).getD G [] =
        encGroup w (gIdx + G) (cIdx + G * g) (grps.getD G []) := by
  intro grps
  induction grps with
  | nil => intro gIdx cIdx G _ hG; simp at hG
  | cons grp rest ih =>
    intro gIdx cIdx G h hG
    cases G with
    | zero =>
      show encGroup w gIdx cIdx grp = encGroup w (gIdx + 0) (cIdx + 0 * g) grp
      rw [Nat.add_zero, Nat.zero_mul, Nat.add_zero]
    | succ G =>
      cases rest with
      | nil => simp at hG
      | cons grp2 rest2 =>
        have hfull : grp.length = g := ((chunkedBy_cons2 g grp grp2 rest2).mp h).1
        have hrest : ChunkedBy g (grp2 :: rest2) := ((chunkedBy_cons2 g grp grp2 rest2).mp h).2
        show (encPieces w (gIdx + 1) (cIdx + grp.length) (grp2 :: rest2)).getD G []
          = encGroup w (gIdx + (G + 1)) (cIdx + (G + 1) * g) ((grp2 :: rest2).getD G [])
        rw [ih (gIdx + 1) (cIdx + grp.length) G hrest
          (by simp only [List.length_cons] at hG ⊢; omega)]
        have e1 : gIdx + 1 + G = gIdx + (G + 1) := by omega
        have e2 : cIdx + grp.length + G * g = cIdx + (G + 1) * g := by
          rw [hfull, Nat.succ_mul]; omega
        rw [e1, e2]

/-- C7: the encoder's output is strictly ordered: block `G` of `group_size + 1`
lines consists of group `G`'s data lines immediately followed by its one
parity line, groups in stream order; every group is nonempty with at most
`group_size` data lines, and every non-final group has exactly `group_size`. -/
theorem C7_output_ordering (b : List Nat) (width group_size : Nat)
    (hw : 0 < width) (hg : 0 < group_size) :
    (∀ G, G < (streamGroups b width group_size).length →
      (chunkList (group_size + 1) (encode b width group_size)).getD G [] =
        dataLines width (G * group_size) ((streamGroups b width group_size).getD G []) ++
          [mkParityLine width G ((streamGroups b width group_size).getD G [])]) ∧
    (chunkList (group_size + 1) (encode b width group_size)).length =
      (streamGroups b width group_size).length ∧
    (∀ G, G < (streamGroups b width group_size).length →
      0 < ((streamGroups b width group_size).getD G []).length ∧
      ((streamGroups b width group_size).getD G []).length ≤ group_size ∧
      (G + 1 < (streamGroups b width group_size).length →
        ((streamGroups b width group_size).getD G []).length = group_size)) := by
  have hcb : ChunkedBy group_size (streamGroups b width group_size) := by
    unfold streamGroups
    exact chunkedBy_chunkList group_size hg (streamChunks b width)
  have hch : chunkList (group_size + 1) (encode b width group_size) =
      encPieces width 0 0 (streamGroups b width group_size) := by
    unfold encode
    exact chunkList_encGroups width group_size hg _ 0 0 hcb
  refine ⟨?_, ?_, ?_⟩
  · intro G hG
    rw [hch, encPieces_getD width group_size _ 0 0 G hcb hG]
    unfold encGroup
    simp only [Nat.zero_add]
  · rw [hch, length_encPieces]
  · intro G hG
    have hmem : (streamGroups b width group_size).getD G [] ∈ streamGroups b width group_size :=
      getD_mem [] _ G hG
    have hfacts := chunkedBy_mem group_size hg _ hcb _ hmem
    refine ⟨?_, hfacts.2, ?_⟩
    · rcases Nat.eq_zero_or_pos ((streamGroups b width group_size).getD G []).length with h0 | h0
      · exact absurd (List.eq_nil_of_length_eq_zero h0) hfacts.1
      · exact h0
    · intro hG1
      exact chunkedBy_getD_full group_size _ hcb G hG1

/-! ### C6: data line format -/

theorem dataLines_getD (w : Nat) : ∀ (chunks : List (List Char)) (cIdx j : Nat),
    j < chunks.length →
    (dataLines w cIdx chunks).getD j [] = mkDataLine w (cIdx + j + 1) (chunks.getD j []) := by
  intro chunks
  induction chunks with
  | nil => intro cIdx j h; simp at h
  | cons c rest ih =>
    intro cIdx j h
    cases j with
    | zero => rfl
    | succ j =>
      show (dataLines w (cIdx + 1) rest).getD j [] = _
      rw [ih (cIdx + 1) j (by simp at h; omega)]
      have : cIdx + 1 + j + 1 = cIdx + (j + 1) + 1 := by omega
      rw [this]
      rfl

theorem encGroups_getD_data (w g : Nat) (hg : 0 < g) :
    ∀ (grps : List (List (List Char))) (gIdx cIdx j : Nat), ChunkedBy g grps →
      j < grps.flatten.length →
      (encGroups w gIdx cIdx grps).getD (j + j / g) [] =
        mkDataLine w (cIdx + j + 1) (grps.flatten.getD j []) := by
  intro grps
  induction grps with
  | nil => intro gIdx cIdx j _ hj; simp at hj
  | cons grp rest ih =>
    intro gIdx cIdx j h hj
    show (encGroup w gIdx cIdx grp ++ encGroups w (gIdx + 1) (cIdx + grp.length) rest).getD
        (j + j / g) [] = _
    by_cases hjg : j < grp.length
    · have hjlt : j < g := by
        have := chunkedBy_head_le g grp rest h
        omega
      have hdiv : j / g = 0 := Nat.div_eq_of_lt hjlt
      have hj0 : j + j / g = j := by rw [hdiv]; rfl
      rw [hj0]
      have hidx : j < (encGroup w gIdx cIdx grp).length := by
        rw [length_encGroup]; omega
      rw [List.getD_append _ _ _ _ hidx]
      unfold encGroup
      have hidx2 : j < (dataLines w cIdx grp).length := by
        rw [length_dataLines]; exact hjg
      rw [List.getD_append _ _ _ _ hidx2, dataLines_getD w grp cIdx j hjg]
      have hflat : (grp :: rest).flatten.getD j [] = grp.getD j [] := by
        rw [List.flatten_cons, List.getD_append _ _ _ _ hjg]
      rw [hflat]
    · have hrest_ne : rest ≠ [] := by
        intro hcon
        subst hcon
        rw [List.flatten_cons, List.flatten_nil, List.append_nil] at hj
        omega
      have hfull : grp.length = g := by
        cases rest with
        | nil => exact absurd rfl hrest_ne
        | cons grp2 rest2 => exact ((chunkedBy_cons2 g grp grp2 rest2).mp h).1
      have hrest : ChunkedBy g rest := by
        cases rest with
        | nil => exact trivial
        | cons grp2 rest2 => exact ((chunkedBy_cons2 g grp grp2 rest2).mp h).2
      have hjge : g ≤ j := by omega
      set j2 := j - g with hj2
      have hjeq : j = g + j2 := by omega
      have hdiv : j / g = 1 + j2 / g := by
        rw [hjeq, Nat.add_comm g j2, Nat.add_div_right _ hg]
        exact Nat.add_comm _ _
      have hidxeq : j + j / g = (encGroup w gIdx cIdx grp).length + (j2 + j2 / g) := by
        rw [length_encGroup, hfull, hdiv, hjeq]
        ring
      rw [hidxeq, List.getD_append_right _ _ _ _ (Nat.le_add_right _ _)]
      rw [Nat.add_sub_cancel_left]
      have hj2lt : j2 < rest.flatten.length := by
        rw [List.flatten_cons, List.length_append] at hj
        omega
      rw [ih (gIdx + 1) (cIdx + grp.length) j2 hrest hj2lt]
      have harg : cIdx + grp.length + j2 + 1 = cIdx + j + 1 := by
        rw [hfull]; omega
      have hflat : (grp :: rest).flatten.getD j [] = rest.flatten.getD j2 [] := by
        rw [List.flatten_cons, List.getD_append_right _ _ _ _ (by omega)]
        have : j - grp.length = j2 := by omega
        rw [this]
      rw [harg, hflat]

theorem mem_toHex8_isLowerHex (n : Nat) : ∀ d ∈ toHex8 n, isLowerHex d = true := by
  intro d hd
  unfold toHex8 at hd
  simp only [List.mem_cons, List.not_mem_nil, or_false] at hd
  rcases hd with rfl | rfl | rfl | rfl | rfl | rfl | rfl | rfl <;> exact hexChar_isLowerHex _

/-- C6: each data line of the encoder's output has the exact shape: the
1-based global chunk index zero-padded to six digits, a space, the chunk
left-justified and space-padded to `width` characters, a space, and its
CRC-32 as eight lowercase hex digits. -/
theorem C6_data_line_format (b : List Nat) (width group_size : Nat) (hw : 0 < width)
    (hg : 0 < group_size) (j : Nat) (hj : j < (streamChunks b width).length)
    (hj6 : j + 1 < 1000000) :
    (encode b width group_size).getD (j + j / group_size) [] =
      pad6 (j + 1) ++ ' ' ::
        ((streamChunks b width).getD j [] ++
          List.replicate (width - ((streamChunks b width).getD j []).length) ' ' ++
          ' ' :: toHex8 (crcOfChars ((streamChunks b width).getD j []))) ∧
    (pad6 (j + 1)).length = 6 ∧
    (∀ d ∈ pad6 (j + 1), d.isDigit = true) ∧
    interpDigits (pad6 (j + 1)) = j + 1 ∧
    (toHex8 (crcOfChars ((streamChunks b width).getD j []))).length = 8 ∧
    (∀ d ∈ toHex8 (crcOfChars ((streamChunks b width).getD j [])), isLowerHex d = true) ∧
    interpHex (toHex8 (crcOfChars ((streamChunks b width).getD j []))) =
      crcOfChars ((streamChunks b width).getD j []) := by
  have hcb : ChunkedBy group_size (streamGroups b width group_size) := by
    unfold streamGroups
    exact chunkedBy_chunkList group_size hg (streamChunks b width)
  have hflat : (streamGroups b width group_size).flatten = streamChunks b width := by
    unfold streamGroups
    exact chunkList_flatten group_size hg _
  refine ⟨?_, length_pad6 _ hj6, fun d hd => (pad6_digit _ d hd).1, interp_pad6 _,
    toHex8_length _, mem_toHex8_isLowerHex _, interpHex_toHex8 _ (crcOfChars_lt _)⟩
  unfold encode
  rw [encGroups_getD_data width group_size hg _ 0 0 j hcb (by rw [hflat]; exact hj)]
  rw [hflat]
  have e : (0 : Nat) + j + 1 = j + 1 := by omega
  rw [e]
  unfold mkDataLine padRight
  rfl

end FEC

namespace FEC

/-! ### Lemmas: small list facts for the corruption arguments -/

theorem eraseIdx_map {α β : Type} (f : α → β) : ∀ (l : List α) (r : Nat),
    (l.map f).eraseIdx r = (l.eraseIdx r).map f := by
  intro l
  induction l with
  | nil => intro r; rfl
  | cons x xs ih =>
    intro r
    cases r with
    | zero => rfl
    | succ r =>
      show (f x :: (xs.map f).eraseIdx r) = f x :: (xs.eraseIdx r).map f
      rw [ih]

theorem eraseIdx_set_self {α : Type} : ∀ (l : List α) (r : Nat) (x : α),
    (l.set r x).eraseIdx r = l.eraseIdx r := by
  intro l
  induction l with
  | nil => intro r x; rfl
  | cons y ys ih =>
    intro r x
    cases r with
    | zero => rfl
    | succ r =>
      show y :: (ys.set r x).eraseIdx r = y :: ys.eraseIdx r
      rw [ih]

theorem getD_set_ne {α : Type} (d : α) : ∀ (l : List α) (i j : Nat) (x : α), i ≠ j →
    (l.set i x).getD j d = l.getD j d := by
  intro l
  induction l with
  | nil => intro i j x _; rfl
  | cons y ys ih =>
    intro i j x hne
    cases i with
    | zero =>
      cases j with
      | zero => exact absurd rfl hne
      | succ j => rfl
    | succ i =>
      cases j with
      | zero => rfl
      | succ j =>
        show (ys.set i x).getD j d = ys.getD j d
        exact ih i j x (by omega)

theorem getD_map_lt {α β : Type} (f : α → β) (d : α) (e : β) :
    ∀ (l : List α) (r : Nat), r < l.length → (l.map f).getD r e = f (l.getD r d) := by
  intro l
  induction l with
  | nil => intro r h; simp at h
  | cons x xs ih =>
    intro r h
    cases r with
    | zero => rfl
    | succ r =>
      show (xs.map f).getD r e = f (xs.getD r d)
      exact ih r (by simp at h; omega)

theorem set_getD_self {α : Type} (d : α) : ∀ (l : List α) (r : Nat), r < l.length →
    l.set r (l.getD r d) = l := by
  intro l
  induction l with
  | nil => intro r h; simp at h
  | cons x xs ih =>
    intro r h
    cases r with
    | zero => rfl
    | succ r =>
      show x :: xs.set r (xs.getD r d) = x :: xs
      rw [ih r (by simp at h; omega)]

theorem getD_modifyAt_self {α : Type} (d : α) : ∀ (l : List α) (G : Nat) (f : α → α),
    G < l.length → (modifyAt l G f).getD G d = f (l.getD G d) := by
  intro l
  induction l with
  | nil => intro G f h; simp at h
  | cons x xs ih =>
    intro G f h
    cases G with
    | zero => rfl
    | succ G =>
      show (modifyAt xs G f).getD G d = f (xs.getD G d)
      exact ih G f (by simp at h; omega)

theorem modifyAt_modifyAt {α : Type} : ∀ (l : List α) (G : Nat) (f h : α → α),
    modifyAt (modifyAt l G h) G f = modifyAt l G (fun x => f (h x)) := by
  intro l
  induction l with
  | nil => intro G f h; rfl
  | cons x xs ih =>
    intro G f h
    cases G with
    | zero => rfl
    | succ G =>
      show x :: modifyAt (modifyAt xs G h) G f = x :: modifyAt xs G fun y => f (h y)
      rw [ih]

end FEC

namespace FEC

/-! ### Lemmas: parsing a group with corrupted payloads -/

theorem parseDatas_set (w : Nat) : ∀ (l : List (List Char)) (i r : Nat) (nl : List Char)
    (ps : List (List Char × Bool)) (q : List Char × Bool),
    parseDatas w i l = some ps → checkDataLine w (i + r) nl = some q → r < l.length →
    parseDatas w i (l.set r nl) = some (ps.set r q) := by
  intro l
  induction l with
  | nil => intro i r nl ps q _ _ hr; simp at hr
  | cons x xs ih =>
    intro i r nl ps q hpd hck hr
    have hpd2 : (match checkDataLine w i x, parseDatas w (i + 1) xs with
      | some p, some ps => some (p :: ps)
      | _, _ => none) = some ps := hpd
    cases hcx : checkDataLine w i x with
    | none => rw [hcx] at hpd2; simp at hpd2
    | some p0 =>
      cases hpx : parseDatas w (i + 1) xs with
      | none => rw [hcx, hpx] at hpd2; simp at hpd2
      | some ps0 =>
        rw [hcx, hpx] at hpd2
        have hps : ps = p0 :: ps0 := by
          simpa using hpd2.symm
        subst hps
        cases r with
        | zero =>
          show (match checkDataLine w i nl, parseDatas w (i + 1) xs with
            | some p, some ps => some (p :: ps)
            | _, _ => none) = some ((p0 :: ps0).set 0 q)
          have : i + 0 = i := by omega
          rw [this] at hck
          rw [hck, hpx]
          rfl
        | succ r =>
          show (match checkDataLine w i x, parseDatas w (i + 1) (xs.set r nl) with
            | some p, some ps => some (p :: ps)
            | _, _ => none) = some ((p0 :: ps0).set (r + 1) q)
          have harith : i + 1 + r = i + (r + 1) := by omega
          rw [hcx, ih (i + 1) r nl ps0 q hpx (by rw [harith]; exact hck)
            (by simp at hr; omega)]
          rfl

theorem badIdx_set_false : ∀ (chunks : List (List Char)) (i r : Nat) (pay : List Char),
    r < chunks.length →
    badIdx i ((chunks.map (fun c => (c, true))).set r (pay, false)) = [i + r] := by
  intro chunks
  induction chunks with
  | nil => intro i r pay hr; simp at hr
  | cons c rest ih =>
    intro i r pay hr
    cases r with
    | zero =>
      show badIdx i ((pay, false) :: rest.map (fun c => (c, true))) = [i + 0]
      show (if false then badIdx (i + 1) (rest.map (fun c => (c, true)))
        else i :: badIdx (i + 1) (rest.map (fun c => (c, true)))) = [i + 0]
      rw [if_neg (by simp)]
      rw [badIdx_allTrue _ (i + 1) (by
        intro p hp
        rcases List.mem_map.mp hp with ⟨d, _, rfl⟩
        rfl)]
      have : i + 0 = i := by omega
      rw [this]
    | succ r =>
      show badIdx i ((c, true) :: (rest.map (fun c => (c, true))).set r (pay, false)) = _
      show (if true then badIdx (i + 1) ((rest.map (fun c => (c, true))).set r (pay, false))
        else i :: badIdx (i + 1) ((rest.map (fun c => (c, true))).set r (pay, false)))
        = [i + (r + 1)]
      rw [if_pos rfl]
      rw [ih (i + 1) r pay (by simp at hr; omega)]
      have : i + 1 + r = i + (r + 1) := by omega
      rw [this]

theorem badIdx_set2_false : ∀ (chunks : List (List Char)) (i r1 r2 : Nat)
    (pay1 pay2 : List Char), r1 < r2 → r2 < chunks.length →
    badIdx i (((chunks.map (fun c => (c, true))).set r1 (pay1, false)).set r2 (pay2, false))
      = [i + r1, i + r2] := by
  intro chunks
  induction chunks with
  | nil => intro i r1 r2 pay1 pay2 _ hr2; simp at hr2
  | cons c rest ih =>
    intro i r1 r2 pay1 pay2 hr12 hr2
    cases r1 with
    | zero =>
      cases r2 with
      | zero => omega
      | succ r2 =>
        show badIdx i ((((c, true) :: rest.map (fun c => (c, true))).set 0
          (pay1, false)).set (r2 + 1) (pay2, false)) = _
        show badIdx i ((pay1, false) :: (rest.map (fun c => (c, true))).set r2 (pay2, false)) = _
        show (if false then badIdx (i + 1) ((rest.map (fun c => (c, true))).set r2 (pay2, false))
          else i :: badIdx (i + 1) ((rest.map (fun c => (c, true))).set r2 (pay2, false)))
          = [i + 0, i + (r2 + 1)]
        rw [if_neg (by simp)]
        rw [badIdx_set_false rest (i + 1) r2 pay2 (by simp at hr2; omega)]
        have e1 : i + 0 = i := by omega
        have e2 : i + 1 + r2 = i + (r2 + 1) := by omega
        rw [e1, e2]
    | succ r1 =>
      cases r2 with
      | zero => omega
      | succ r2 =>
        show badIdx i ((c, true) ::
          ((rest.map (fun c => (c, true))).set r1 (pay1, false)).set r2 (pay2, false)) = _
        show (if true then badIdx (i + 1)
            (((rest.map (fun c => (c, true))).set r1 (pay1, false)).set r2 (pay2, false))
          else i :: badIdx (i + 1)
            (((rest.map (fun c => (c, true))).set r1 (pay1, false)).set r2 (pay2, false)))
          = [i + (r1 + 1), i + (r2 + 1)]
        rw [if_pos rfl]
        rw [ih (i + 1) r1 r2 pay1 pay2 (by omega) (by simp at hr2; omega)]
        have e1 : i + 1 + r1 = i + (r1 + 1) := by omega
        have e2 : i + 1 + r2 = i + (r2 + 1) := by omega
        rw [e1, e2]

theorem checkDataLine_corrupt (w idx : Nat) (chunk garb : List Char)
    (hlen : chunk.length ≤ w) (halpha : ∀ x ∈ chunk, (x == ' ') = false)
    (hg : garb.length = w)
    (hcrc : crcOfChars (trimRight garb) ≠ crcOfChars chunk) :
    checkDataLine w idx (replacePayload w (mkDataLine w idx chunk) garb)
      = some (trimRight garb, false) := by
  unfold mkDataLine
  rw [replacePayload_wf w (pad6 idx) _ _ garb
    (fun c hc => bne_space_of_beq_false (pad6_digit idx c hc).2) (length_padRight w chunk hlen)]
  rw [checkDataLine_wf w idx garb _ hg (toHex8_length _)]
  have hfalse : (toHex8 (crcOfChars (trimRight garb)) == toHex8 (crcOfChars chunk)) = false := by
    apply beq_eq_false_iff_ne.mpr
    intro hcon
    exact hcrc (toHex8_inj _ _ (crcOfChars_lt _) (crcOfChars_lt _) hcon)
  rw [hfalse]

end FEC

namespace FEC

/-! ### Lemmas: decoding a group with corrupted data lines -/

theorem decodeGroup_recover (w gIdx cIdx : Nat) (chunks : List (List Char)) (r : Nat)
    (garb : List Char)
    (hside : ∀ c ∈ chunks, c.length ≤ w ∧ ∀ x ∈ c, (x == ' ') = false)
    (halpha : ∀ c ∈ chunks, allAlpha c)
    (hr : r < chunks.length)
    (hw8 : 8 ∣ w)
    (hfull : (chunks.getD r []).length = w)
    (hglen : garb.length = w)
    (hcrc : crcOfChars (trimRight garb) ≠ crcOfChars (chunks.getD r [])) :
    decodeGroup w gIdx cIdx ((encGroup w gIdx cIdx chunks).set r
        (replacePayload w ((encGroup w gIdx cIdx chunks).getD r []) garb))
      = .ok chunks.flatten := by
  have hrdl : r < (dataLines w cIdx chunks).length := by
    rw [length_dataLines]; exact hr
  have hget : (encGroup w gIdx cIdx chunks).getD r []
      = mkDataLine w (cIdx + r + 1) (chunks.getD r []) := by
    unfold encGroup
    rw [List.getD_append _ _ _ _ hrdl, dataLines_getD w chunks cIdx r hr]
  have hset : (encGroup w gIdx cIdx chunks).set r
        (replacePayload w ((encGroup w gIdx cIdx chunks).getD r []) garb)
      = (dataLines w cIdx chunks).set r
          (replacePayload w ((encGroup w gIdx cIdx chunks).getD r []) garb)
        ++ [mkParityLine w gIdx chunks] := by
    show (dataLines w cIdx chunks ++ [mkParityLine w gIdx chunks]).set r _ = _
    rw [List.set_append_left _ _ hrdl]
  rw [hset]
  unfold decodeGroup
  rw [List.getLast?_concat, List.dropLast_concat]
  have hchunkside := hside (chunks.getD r []) (getD_mem [] chunks r hr)
  have hck : checkDataLine w (cIdx + 1 + r)
      (replacePayload w ((encGroup w gIdx cIdx chunks).getD r []) garb)
      = some (trimRight garb, false) := by
    rw [hget]
    have e : cIdx + 1 + r = cIdx + r + 1 := by omega
    rw [e]
    exact checkDataLine_corrupt w _ _ garb hchunkside.1 hchunkside.2 hglen hcrc
  have hpd : parseDatas w (cIdx + 1) ((dataLines w cIdx chunks).set r
        (replacePayload w ((encGroup w gIdx cIdx chunks).getD r []) garb))
      = some ((chunks.map (fun c => (c, true))).set r (trimRight garb, false)) :=
    parseDatas_set w _ (cIdx + 1) r _ _ _ (parseDatas_dataLines w chunks cIdx hside) hck hrdl
  show (match parseDatas w (cIdx + 1) ((dataLines w cIdx chunks).set r
        (replacePayload w ((encGroup w gIdx cIdx chunks).getD r []) garb)),
      checkParityLine w gIdx (mkParityLine w gIdx chunks) with
    | some ps, some pp =>
      match badIdx 0 ps with
      | [] => DRes.ok ((ps.map Prod.fst).flatten)
      | [j] =>
        if pp.2 then
          DRes.ok (((ps.map Prod.fst).set j (b32encodeChars (recoverBytes ps j pp.1))).flatten)
        else DRes.error (DecErr.CorruptionError gIdx)
      | _ => DRes.error (DecErr.CorruptionError gIdx)
    | _, _ => DRes.error DecErr.FormatError) = DRes.ok chunks.flatten
  rw [hpd, checkParityLine_mkParityLine w gIdx chunks (fun c hc => (hside c hc).1)]
  show (match badIdx 0 ((chunks.map (fun c => (c, true))).set r (trimRight garb, false)) with
    | [] => DRes.ok (((((chunks.map (fun c => (c, true))).set r
        (trimRight garb, false))).map Prod.fst).flatten)
    | [j] =>
      if (parityChunk chunks, true).2 then
        DRes.ok ((((((chunks.map (fun c => (c, true))).set r
            (trimRight garb, false))).map Prod.fst).set j
          (b32encodeChars (recoverBytes ((chunks.map (fun c => (c, true))).set r
            (trimRight garb, false)) j (parityChunk chunks, true).1))).flatten)
      else DRes.error (DecErr.CorruptionError gIdx)
    | _ => DRes.error (DecErr.CorruptionError gIdx)) = DRes.ok chunks.flatten
  rw [badIdx_set_false chunks 0 r (trimRight garb) hr]
  have hz : (0:Nat) + r = r := by omega
  rw [hz]
  show (if true = true then
      DRes.ok ((((((chunks.map (fun c => (c, true))).set r
          (trimRight garb, false))).map Prod.fst).set r
        (b32encodeChars (recoverBytes ((chunks.map (fun c => (c, true))).set r
          (trimRight garb, false)) r (parityChunk chunks)))).flatten)
    else DRes.error (DecErr.CorruptionError gIdx)) = DRes.ok chunks.flatten
  rw [if_pos rfl]
  have herase : ((chunks.map (fun c => (c, true))).set r (trimRight garb, false)).eraseIdx r
      = (chunks.eraseIdx r).map (fun c => (c, true)) := by
    rw [eraseIdx_set_self, eraseIdx_map]
  have hrecover : recoverBytes ((chunks.map (fun c => (c, true))).set r
      (trimRight garb, false)) r (parityChunk chunks)
      = b32decodeChars (chunks.getD r []) := by
    unfold recoverBytes
    rw [herase, List.map_map]
    have hmj : (chunks.eraseIdx r).map
        ((fun q : List Char × Bool => b32decodeChars q.1) ∘ (fun c => (c, true)))
        = (chunks.eraseIdx r).map b32decodeChars := by
      apply List.map_congr_left
      intro c _
      rfl
    rw [hmj]
    have hpb : b32decodeChars (parityChunk chunks) = parityBytesOf chunks :=
      b32_roundtrip _ (parityBytesOf_lt chunks)
    rw [hpb, foldl_xorBytes]
    have hDr : r < (chunks.map b32decodeChars).length := by
      rw [List.length_map]; exact hr
    have hxa : parityBytesOf chunks
        = xorBytes ((chunks.map b32decodeChars).getD r [])
            (xorAll ((chunks.map b32decodeChars).eraseIdx r)) := by
      unfold parityBytesOf
      exact xorAll_eraseIdx _ r hDr
    rw [hxa, eraseIdx_map, xorBytes_assoc, xorBytes_self]
    have hDrval : (chunks.map b32decodeChars).getD r [] = b32decodeChars (chunks.getD r []) :=
      getD_map_lt b32decodeChars [] [] chunks r hr
    rw [hDrval]
    apply xorBytes_zeros
    rw [length_b32decodeChars, hfull]
    apply length_xorAll_le
    intro l hl
    rcases List.mem_map.mp hl with ⟨c, hc, rfl⟩
    rw [length_b32decodeChars]
    exact Nat.div_le_div_right
      (Nat.mul_le_mul_left 5 ((hside c (List.mem_of_mem_eraseIdx hc)).1))
  have hreenc : b32encodeChars (b32decodeChars (chunks.getD r [])) = chunks.getD r [] := by
    apply b32_encode_of_decode
    · exact halpha (chunks.getD r []) (getD_mem [] chunks r hr)
    · rw [hfull]; exact hw8
  rw [hrecover, hreenc, List.map_set, map_fst_map_true]
  show DRes.ok (((chunks.set r (trimRight garb, false).1).set r (chunks.getD r [])).flatten)
    = DRes.ok chunks.flatten
  rw [List.set_set, set_getD_self [] chunks r hr]

theorem decodeGroup_two_bad (w gIdx cIdx : Nat) (chunks : List (List Char)) (r1 r2 : Nat)
    (garb1 garb2 : List Char)
    (hside : ∀ c ∈ chunks, c.length ≤ w ∧ ∀ x ∈ c, (x == ' ') = false)
    (hr12 : r1 < r2) (hr2 : r2 < chunks.length)
    (hglen1 : garb1.length = w) (hglen2 : garb2.length = w)
    (hcrc1 : crcOfChars (trimRight garb1) ≠ crcOfChars (chunks.getD r1 []))
    (hcrc2 : crcOfChars (trimRight garb2) ≠ crcOfChars (chunks.getD r2 [])) :
    decodeGroup w gIdx cIdx
      (((encGroup w gIdx cIdx chunks).set r2
          (replacePayload w ((encGroup w gIdx cIdx chunks).getD r2 []) garb2)).set r1
        (replacePayload w ((encGroup w gIdx cIdx chunks).getD r1 []) garb1))
      = .error (.CorruptionError gIdx) := by
  have hr1 : r1 < chunks.length := by omega
  have hrdl1 : r1 < (dataLines w cIdx chunks).length := by
    rw [length_dataLines]; exact hr1
  have hrdl2 : r2 < (dataLines w cIdx chunks).length := by
    rw [length_dataLines]; exact hr2
  have hget1 : (encGroup w gIdx cIdx chunks).getD r1 []
      = mkDataLine w (cIdx + r1 + 1) (chunks.getD r1 []) := by
    unfold encGroup
    rw [List.getD_append _ _ _ _ hrdl1, dataLines_getD w chunks cIdx r1 hr1]
  have hget2 : (encGroup w gIdx cIdx chunks).getD r2 []
      = mkDataLine w (cIdx + r2 + 1) (chunks.getD r2 []) := by
    unfold encGroup
    rw [List.getD_append _ _ _ _ hrdl2, dataLines_getD w chunks cIdx r2 hr2]
  have hset : ((encGroup w gIdx cIdx chunks).set r2
        (replacePayload w ((encGroup w gIdx cIdx chunks).getD r2 []) garb2)).set r1
        (replacePayload w ((encGroup w gIdx cIdx chunks).getD r1 []) garb1)
      = ((dataLines w cIdx chunks).set r2
          (replacePayload w ((encGroup w gIdx cIdx chunks).getD r2 []) garb2)).set r1
          (replacePayload w ((encGroup w gIdx cIdx chunks).getD r1 []) garb1)
        ++ [mkParityLine w gIdx chunks] := by
    show ((dataLines w cIdx chunks ++ [mkParityLine w gIdx chunks]).set r2 _).set r1 _ = _
    rw [List.set_append_left _ _ hrdl2, List.set_append_left _ _
      (by rw [List.length_set]; exact hrdl1)]
  rw [hset]
  unfold decodeGroup
  rw [List.getLast?_concat, List.dropLast_concat]
  have hside1 := hside (chunks.getD r1 []) (getD_mem [] chunks r1 hr1)
  have hside2 := hside (chunks.getD r2 []) (getD_mem [] chunks r2 hr2)
  have hck2 : checkDataLine w (cIdx + 1 + r2)
      (replacePayload w ((encGroup w gIdx cIdx chunks).getD r2 []) garb2)
      = some (trimRight garb2, false) := by
    rw [hget2]
    have e : cIdx + 1 + r2 = cIdx + r2 + 1 := by omega
    rw [e]
    exact checkDataLine_corrupt w _ _ garb2 hside2.1 hside2.2 hglen2 hcrc2
  have hck1 : checkDataLine w (cIdx + 1 + r1)
      (replacePayload w ((encGroup w gIdx cIdx chunks).getD r1 []) garb1)
      = some (trimRight garb1, false) := by
    rw [hget1]
    have e : cIdx + 1 + r1 = cIdx + r1 + 1 := by omega
    rw [e]
    exact checkDataLine_corrupt w _ _ garb1 hside1.1 hside1.2 hglen1 hcrc1
  have hpd2 : parseDatas w (cIdx + 1) ((dataLines w cIdx chunks).set r2
        (replacePayload w ((encGroup w gIdx cIdx chunks).getD r2 []) garb2))
      = some ((chunks.map (fun c => (c, true))).set r2 (trimRight garb2, false)) :=
    parseDatas_set w _ (cIdx + 1) r2 _ _ _ (parseDatas_dataLines w chunks cIdx hside) hck2 hrdl2
  have hpd1 : parseDatas w (cIdx + 1) (((dataLines w cIdx chunks).set r2
        (replacePayload w ((encGroup w gIdx cIdx chunks).getD r2 []) garb2)).set r1
        (replacePayload w ((encGroup w gIdx cIdx chunks).getD r1 []) garb1))
      = some (((chunks.map (fun c => (c, true))).set r2 (trimRight garb2, false)).set r1
          (trimRight garb1, false)) :=
    parseDatas_set w _ (cIdx + 1) r1 _ _ _ hpd2 hck1 (by rw [List.length_set]; exact hrdl1)
  show (match parseDatas w (cIdx + 1) (((dataLines w cIdx chunks).set r2
        (replacePayload w ((encGroup w gIdx cIdx chunks).getD r2 []) garb2)).set r1
        (replacePayload w ((encGroup w gIdx cIdx chunks).getD r1 []) garb1)),
      checkParityLine w gIdx (mkParityLine w gIdx chunks) with
    | some ps, some pp =>
      match badIdx 0 ps with
      | [] => DRes.ok ((ps.map Prod.fst).flatten)
      | [j] =>
        if pp.2 then
          DRes.ok (((ps.map Prod.fst).set j (b32encodeChars (recoverBytes ps j pp.1))).flatten)
        else DRes.error (DecErr.CorruptionError gIdx)
      | _ => DRes.error (DecErr.CorruptionError gIdx)
    | _, _ => DRes.error DecErr.FormatError) = DRes.error (DecErr.CorruptionError gIdx)
  rw [hpd1, checkParityLine_mkParityLine w gIdx chunks (fun c hc => (hside c hc).1)]
  have hswap : ((chunks.map (fun c => (c, true))).set r2 (trimRight garb2, false)).set r1
      (trimRight garb1, false)
      = ((chunks.map (fun c => (c, true))).set r1 (trimRight garb1, false)).set r2
        (trimRight garb2, false) :=
    List.set_comm _ _ _ (by omega)
  show (match badIdx 0 (((chunks.map (fun c => (c, true))).set r2
      (trimRight garb2, false)).set r1 (trimRight garb1, false)) with
    | [] => DRes.ok (((((chunks.map (fun c => (c, true))).set r2
        (trimRight garb2, false)).set r1 (trimRight garb1, false)).map Prod.fst).flatten)
    | [j] =>
      if (parityChunk chunks, true).2 then
        DRes.ok ((((((chunks.map (fun c => (c, true))).set r2
            (trimRight garb2, false)).set r1 (trimRight garb1, false)).map Prod.fst).set j
          (b32encodeChars (recoverBytes (((chunks.map (fun c => (c, true))).set r2
            (trimRight garb2, false)).set r1 (trimRight garb1, false)) j
            (parityChunk chunks, true).1))).flatten)
      else DRes.error (DecErr.CorruptionError gIdx)
    | _ => DRes.error (DecErr.CorruptionError gIdx)) = DRes.error (DecErr.CorruptionError gIdx)
  rw [hswap, badIdx_set2_false chunks 0 r1 r2 (trimRight garb1) (trimRight garb2) hr12 hr2]

end FEC

namespace FEC

/-! ### Lemmas: corrupting whole streams -/

theorem encGroups_eq_flatten (w : Nat) : ∀ (grps : List (List (List Char))) (gIdx cIdx : Nat),
    encGroups w gIdx cIdx grps = (encPieces w gIdx cIdx grps).flatten := by
  intro grps
  induction grps with
  | nil => intro gIdx cIdx; rfl
  | cons grp rest ih =>
    intro gIdx cIdx
    show encGroup w gIdx cIdx grp ++ encGroups w (gIdx + 1) (cIdx + grp.length) rest
      = (encGroup w gIdx cIdx grp :: encPieces w (gIdx + 1) (cIdx + grp.length) rest).flatten
    rw [List.flatten_cons, ih]

theorem chunkedBy_encPieces (w g : Nat) : ∀ (grps : List (List (List Char))) (gIdx cIdx : Nat),
    ChunkedBy g grps → ChunkedBy (g + 1) (encPieces w gIdx cIdx grps) := by
  intro grps
  induction grps with
  | nil => intro gIdx cIdx _; exact trivial
  | cons grp rest ih =>
    intro gIdx cIdx h
    cases rest with
    | nil =>
      rw [chunkedBy_singleton] at h
      show ChunkedBy (g + 1) [encGroup w gIdx cIdx grp]
      rw [chunkedBy_singleton]
      exact ⟨encGroup_ne_nil w gIdx cIdx grp, by rw [length_encGroup]; omega⟩
    | cons grp2 rest2 =>
      rw [chunkedBy_cons2] at h
      show ChunkedBy (g + 1) (encGroup w gIdx cIdx grp ::
        encPieces w (gIdx + 1) (cIdx + grp.length) (grp2 :: rest2))
      have htail := ih (gIdx + 1) (cIdx + grp.length) h.2
      show ChunkedBy (g + 1) (encGroup w gIdx cIdx grp ::
        (encGroup w (gIdx + 1) (cIdx + grp.length) grp2 ::
          encPieces w (gIdx + 1 + 1) (cIdx + grp.length + grp2.length) rest2))
      rw [chunkedBy_cons2]
      exact ⟨by rw [length_encGroup, h.1], htail⟩

theorem take_flatten_length_full (g : Nat) : ∀ (grps : List (List (List Char))) (G : Nat),
    ChunkedBy g grps → G < grps.length → (grps.take G).flatten.length = G * g := by
  intro grps
  induction grps with
  | nil => intro G _ hG; simp at hG
  | cons grp rest ih =>
    intro G h hG
    cases G with
    | zero => simp
    | succ G =>
      cases rest with
      | nil => simp at hG
      | cons grp2 rest2 =>
        rw [chunkedBy_cons2] at h
        show ((grp :: grp2 :: rest2).take (G + 1)).flatten.length = (G + 1) * g
        rw [List.take_succ_cons, List.flatten_cons, List.length_append,
          ih G h.2 (by simp only [List.length_cons] at hG ⊢; omega), h.1, Nat.succ_mul]
        omega

end FEC

namespace FEC

theorem decodeGroups_mod_ok (w : Nat) :
    ∀ (grps : List (List (List Char))) (gIdx cIdx G : Nat)
      (f : List (List Char) → List (List Char)),
      (∀ grp ∈ grps, ∀ c ∈ grp, c.length ≤ w ∧ ∀ x ∈ c, (x == ' ') = false) →
      G < grps.length →
      (∀ p, (f p).length = p.length) →
      decodeGroup w (gIdx + G) (cIdx + (grps.take G).flatten.length)
          (f (encGroup w (gIdx + G) (cIdx + (grps.take G).flatten.length) (grps.getD G [])))
        = .ok ((grps.getD G []).flatten) →
      decodeGroups w gIdx cIdx (modifyAt (encPieces w gIdx cIdx grps) G f)
        = .ok grps.flatten.flatten := by
  intro grps
  induction grps with
  | nil => intro gIdx cIdx G f _ hG _ _; simp at hG
  | cons grp rest ih =>
    intro gIdx cIdx G f hside hG hflen hdec
    cases G with
    | zero =>
      simp only [List.take_zero, List.flatten_nil, List.length_nil, Nat.add_zero,
        List.getD_cons_zero] at hdec
      show decodeGroups w gIdx cIdx (modifyAt (encGroup w gIdx cIdx grp ::
        encPieces w (gIdx + 1) (cIdx + grp.length) rest) 0 f) = _
      rw [modifyAt_zero]
      show (match decodeGroup w gIdx cIdx (f (encGroup w gIdx cIdx grp)) with
        | .error e => .error e
        | .ok t =>
          match decodeGroups w (gIdx + 1) (cIdx + ((f (encGroup w gIdx cIdx grp)).length - 1))
              (encPieces w (gIdx + 1) (cIdx + grp.length) rest) with
          | .error e => .error e
          | .ok ts => .ok (t ++ ts)) = DRes.ok ((grp :: rest).flatten.flatten)
      rw [hdec, hflen, length_encGroup]
      have hm1 : grp.length + 1 - 1 = grp.length := by omega
      rw [hm1, decodeGroups_encPieces w rest (gIdx + 1) (cIdx + grp.length)
        (fun d hd => hside d (by simp [hd]))]
      rw [List.flatten_cons, List.flatten_append]
    | succ G =>
      show decodeGroups w gIdx cIdx (modifyAt (encGroup w gIdx cIdx grp ::
        encPieces w (gIdx + 1) (cIdx + grp.length) rest) (G + 1) f) = _
      rw [modifyAt_succ]
      show (match decodeGroup w gIdx cIdx (encGroup w gIdx cIdx grp) with
        | .error e => .error e
        | .ok t =>
          match decodeGroups w (gIdx + 1) (cIdx + ((encGroup w gIdx cIdx grp).length - 1))
              (modifyAt (encPieces w (gIdx + 1) (cIdx + grp.length) rest) G f) with
          | .error e => .error e
          | .ok ts => .ok (t ++ ts)) = DRes.ok ((grp :: rest).flatten.flatten)
      rw [decodeGroup_encGroup w gIdx cIdx grp (hside grp (by simp)), length_encGroup]
      have hm1 : grp.length + 1 - 1 = grp.length := by omega
      rw [hm1]
      have hrest : G < rest.length := by
        simp only [List.length_cons] at hG
        omega
      have e1 : gIdx + (G + 1) = gIdx + 1 + G := by omega
      have e2 : cIdx + ((grp :: rest).take (G + 1)).flatten.length
          = cIdx + grp.length + (rest.take G).flatten.length := by
        rw [List.take_succ_cons, List.flatten_cons, List.length_append]
        omega
      have e3 : (grp :: rest).getD (G + 1) [] = rest.getD G [] := rfl
      rw [e1, e2, e3] at hdec
      rw [ih (gIdx + 1) (cIdx + grp.length) G f (fun d hd => hside d (by simp [hd]))
        hrest hflen hdec]
      rw [List.flatten_cons, List.flatten_append]

theorem decodeGroups_mod_err (w : Nat) :
    ∀ (grps : List (List (List Char))) (gIdx cIdx G : Nat) (e : DecErr)
      (f : List (List Char) → List (List Char)),
      (∀ grp ∈ grps, ∀ c ∈ grp, c.length ≤ w ∧ ∀ x ∈ c, (x == ' ') = false) →
      G < grps.length →
      decodeGroup w (gIdx + G) (cIdx + (grps.take G).flatten.length)
          (f (encGroup w (gIdx + G) (cIdx + (grps.take G).flatten.length) (grps.getD G [])))
        = .error e →
      decodeGroups w gIdx cIdx (modifyAt (encPieces w gIdx cIdx grps) G f)
        = .error e := by
  intro grps
  induction grps with
  | nil => intro gIdx cIdx G e f _ hG _; simp at hG
  | cons grp rest ih =>
    intro gIdx cIdx G e f hside hG hdec
    cases G with
    | zero =>
      simp only [List.take_zero, List.flatten_nil, List.length_nil, Nat.add_zero,
        List.getD_cons_zero] at hdec
      show decodeGroups w gIdx cIdx (modifyAt (encGroup w gIdx cIdx grp ::
        encPieces w (gIdx + 1) (cIdx + grp.length) rest) 0 f) = _
      rw [modifyAt_zero]
      show (match decodeGroup w gIdx cIdx (f (encGroup w gIdx cIdx grp)) with
        | .error e => .error e
        | .ok t =>
          match decodeGroups w (gIdx + 1) (cIdx + ((f (encGroup w gIdx cIdx grp)).length - 1))
              (encPieces w (gIdx + 1) (cIdx + grp.length) rest) with
          | .error e => .error e
          | .ok ts => .ok (t ++ ts)) = DRes.error e
      rw [hdec]
    | succ G =>
      show decodeGroups w gIdx cIdx (modifyAt (encGroup w gIdx cIdx grp ::
        encPieces w (gIdx + 1) (cIdx + grp.length) rest) (G + 1) f) = _
      rw [modifyAt_succ]
      show (match decodeGroup w gIdx cIdx (encGroup w gIdx cIdx grp) with
        | .error e => .error e
        | .ok t =>
          match decodeGroups w (gIdx + 1) (cIdx + ((encGroup w gIdx cIdx grp).length - 1))
              (modifyAt (encPieces w (gIdx + 1) (cIdx + grp.length) rest) G f) with
          | .error e => .error e
          | .ok ts => .ok (t ++ ts)) = DRes.error e
      rw [decodeGroup_encGroup w gIdx cIdx grp (hside grp (by simp)), length_encGroup]
      have hm1 : grp.length + 1 - 1 = grp.length := by omega
      rw [hm1]
      have hrest : G < rest.length := by
        simp only [List.length_cons] at hG
        omega
      have e1 : gIdx + (G + 1) = gIdx + 1 + G := by omega
      have e2 : cIdx + ((grp :: rest).take (G + 1)).flatten.length
          = cIdx + grp.length + (rest.take G).flatten.length := by
        rw [List.take_succ_cons, List.flatten_cons, List.length_append]
        omega
      have e3 : (grp :: rest).getD (G + 1) [] = rest.getD G [] := rfl
      rw [e1, e2, e3] at hdec
      rw [ih (gIdx + 1) (cIdx + grp.length) G e f (fun d hd => hside d (by simp [hd]))
        hrest hdec]

theorem encode_alpha_conditions (b : List Nat) (width group_size : Nat) (hw : 0 < width)
    (hg : 0 < group_size) :
    ∀ grp ∈ streamGroups b width group_size, ∀ c ∈ grp, allAlpha c := by
  intro grp hgrp c hc x hx
  have hcs : c ∈ streamChunks b width :=
    mem_of_mem_chunkList group_size hg _ grp hgrp c hc
  have hxs : x ∈ b32encodeChars b := mem_of_mem_chunkList width hw _ c hcs x hx
  exact mem_b32encodeChars b x hxs

end FEC

namespace FEC

/-- C2 (amended): single-line recovery holds when the width is a multiple of
eight (so chunks are byte-aligned) and the corrupted data line carries a
full-width chunk: replacing that line's payload with garbage whose checksum
no longer matches still decodes to the original bytes. -/
theorem C2_single_line_recovery_amended (b : List Nat) (width group_size : Nat)
    (hw : 0 < width) (hg : 0 < group_size) (h8 : 8 ∣ width) (hb : ∀ x ∈ b, x < 256)
    (G r : Nat) (garb : List Char)
    (hG : G < (streamGroups b width group_size).length)
    (hr : r < ((streamGroups b width group_size).getD G []).length)
    (hfull : (((streamGroups b width group_size).getD G []).getD r []).length = width)
    (hglen : garb.length = width)
    (hcrc : crcOfChars (trimRight garb)
      ≠ crcOfChars (((streamGroups b width group_size).getD G []).getD r [])) :
    decode (corruptAt width (encode b width group_size) (G * (group_size + 1) + r) garb)
      width group_size = DRes.ok b := by
  have hcb : ChunkedBy group_size (streamGroups b width group_size) := by
    unfold streamGroups
    exact chunkedBy_chunkList group_size hg (streamChunks b width)
  have hcbp : ChunkedBy (group_size + 1) (encPieces width 0 0 (streamGroups b width group_size)) :=
    chunkedBy_encPieces width group_size _ 0 0 hcb
  have hGp : G < (encPieces width 0 0 (streamGroups b width group_size)).length := by
    rw [length_encPieces]; exact hG
  have hpieceG : (encPieces width 0 0 (streamGroups b width group_size)).getD G []
      = encGroup width G (G * group_size) ((streamGroups b width group_size).getD G []) := by
    rw [encPieces_getD width group_size _ 0 0 G hcb hG]
    rw [Nat.zero_add, Nat.zero_add]
  have hr_piece : r < ((encPieces width 0 0 (streamGroups b width group_size)).getD G []).length := by
    rw [hpieceG, length_encGroup]
    omega
  have hlines : encode b width group_size
      = (encPieces width 0 0 (streamGroups b width group_size)).flatten := by
    unfold encode
    exact encGroups_eq_flatten width _ 0 0
  have hgetline : (encode b width group_size).getD (G * (group_size + 1) + r) []
      = ((encPieces width 0 0 (streamGroups b width group_size)).getD G []).getD r [] := by
    rw [hlines]
    exact getD_flatten (group_size + 1) [] _ G r hcbp hr_piece hGp
  unfold corruptAt
  rw [hgetline]
  have hsetline : (encode b width group_size).set (G * (group_size + 1) + r)
        (replacePayload width
          (((encPieces width 0 0 (streamGroups b width group_size)).getD G []).getD r []) garb)
      = (modifyAt (encPieces width 0 0 (streamGroups b width group_size)) G
          (fun p => p.set r (replacePayload width
            (((encPieces width 0 0 (streamGroups b width group_size)).getD G []).getD r [])
            garb))).flatten := by
    rw [hlines]
    exact flatten_set (group_size + 1) _ G r _ hcbp hr_piece hGp
  rw [hsetline]
  unfold decode
  rw [chunkList_of_chunkedBy (group_size + 1) (by omega) _
    (chunkedBy_modifyAt (group_size + 1) _ G _ hcbp (fun c => List.length_set c r _))]
  have htk : ((streamGroups b width group_size).take G).flatten.length = G * group_size :=
    take_flatten_length_full group_size _ G hcb hG
  have hgrpmem : (streamGroups b width group_size).getD G [] ∈ streamGroups b width group_size :=
    getD_mem [] _ G hG
  have hdec : decodeGroup width (0 + G)
      (0 + ((streamGroups b width group_size).take G).flatten.length)
      ((fun p => p.set r (replacePayload width
          (((encPieces width 0 0 (streamGroups b width group_size)).getD G []).getD r []) garb))
        (encGroup width (0 + G)
          (0 + ((streamGroups b width group_size).take G).flatten.length)
          ((streamGroups b width group_size).getD G [])))
      = .ok (((streamGroups b width group_size).getD G []).flatten) := by
    rw [Nat.zero_add, Nat.zero_add, htk, hpieceG]
    exact decodeGroup_recover width G (G * group_size) _ r garb
      (encode_side_conditions b width group_size hw hg _ hgrpmem)
      (encode_alpha_conditions b width group_size hw hg _ hgrpmem)
      hr h8 hfull hglen hcrc
  rw [decodeGroups_mod_ok width _ 0 0 G _
    (encode_side_conditions b width group_size hw hg) hG
    (fun p => List.length_set p r _) hdec]
  show DRes.ok (b32decodeChars ((streamGroups b width group_size).flatten.flatten)) = _
  unfold streamGroups
  rw [chunkList_flatten group_size hg (streamChunks b width)]
  unfold streamChunks
  rw [chunkList_flatten width hw (b32encodeChars b)]
  rw [b32_roundtrip b hb]

/-- C3: corrupting two data lines of the same group makes decode fail with
`CorruptionError` naming that group's index; in particular it never returns
bytes differing from the input. -/
theorem C3_double_corruption (b : List Nat) (width group_size : Nat)
    (hw : 0 < width) (hg : 0 < group_size)
    (G r1 r2 : Nat) (garb1 garb2 : List Char)
    (hG : G < (streamGroups b width group_size).length)
    (hr12 : r1 < r2)
    (hr2 : r2 < ((streamGroups b width group_size).getD G []).length)
    (hglen1 : garb1.length = width) (hglen2 : garb2.length = width)
    (hcrc1 : crcOfChars (trimRight garb1)
      ≠ crcOfChars (((streamGroups b width group_size).getD G []).getD r1 []))
    (hcrc2 : crcOfChars (trimRight garb2)
      ≠ crcOfChars (((streamGroups b width group_size).getD G []).getD r2 [])) :
    decode (corruptAt width (corruptAt width (encode b width group_size)
        (G * (group_size + 1) + r2) garb2) (G * (group_size + 1) + r1) garb1)
      width group_size = DRes.error (DecErr.CorruptionError G) := by
  have hcb : ChunkedBy group_size (streamGroups b width group_size) := by
    unfold streamGroups
    exact chunkedBy_chunkList group_size hg (streamChunks b width)
  have hcbp : ChunkedBy (group_size + 1) (encPieces width 0 0 (streamGroups b width group_size)) :=
    chunkedBy_encPieces width group_size _ 0 0 hcb
  have hGp : G < (encPieces width 0 0 (streamGroups b width group_size)).length := by
    rw [length_encPieces]; exact hG
  have hpieceG : (encPieces width 0 0 (streamGroups b width group_size)).getD G []
      = encGroup width G (G * group_size) ((streamGroups b width group_size).getD G []) := by
    rw [encPieces_getD width group_size _ 0 0 G hcb hG]
    rw [Nat.zero_add, Nat.zero_add]
  have hr1 : r1 < ((streamGroups b width group_size).getD G []).length := by omega
  have hr_piece1 : r1 < ((encPieces width 0 0 (streamGroups b width group_size)).getD G []).length := by
    rw [hpieceG, length_encGroup]
    omega
  have hr_piece2 : r2 < ((encPieces width 0 0 (streamGroups b width group_size)).getD G []).length := by
    rw [hpieceG, length_encGroup]
    omega
  have hlines : encode b width group_size
      = (encPieces width 0 0 (streamGroups b width group_size)).flatten := by
    unfold encode
    exact encGroups_eq_flatten width _ 0 0
  have hgetline2 : (encode b width group_size).getD (G * (group_size + 1) + r2) []
      = ((encPieces width 0 0 (streamGroups b width group_size)).getD G []).getD r2 [] := by
    rw [hlines]
    exact getD_flatten (group_size + 1) [] _ G r2 hcbp hr_piece2 hGp
  unfold corruptAt
  rw [hgetline2]
  have hsetline2 : (encode b width group_size).set (G * (group_size + 1) + r2)
        (replacePayload width
          (((encPieces width 0 0 (streamGroups b width group_size)).getD G []).getD r2 []) garb2)
      = (modifyAt (encPieces width 0 0 (streamGroups b width group_size)) G
          (fun p => p.set r2 (replacePayload width
            (((encPieces width 0 0 (streamGroups b width group_size)).getD G []).getD r2 [])
            garb2))).flatten := by
    rw [hlines]
    exact flatten_set (group_size + 1) _ G r2 _ hcbp hr_piece2 hGp
  rw [hsetline2]
  have hcbp2 : ChunkedBy (group_size + 1)
      (modifyAt (encPieces width 0 0 (streamGroups b width group_size)) G
        (fun p => p.set r2 (replacePayload width
          (((encPieces width 0 0 (streamGroups b width group_size)).getD G []).getD r2 [])
          garb2))) :=
    chunkedBy_modifyAt (group_size + 1) _ G _ hcbp (fun c => List.length_set c r2 _)
  have hGp2 : G < (modifyAt (encPieces width 0 0 (streamGroups b width group_size)) G
      (fun p => p.set r2 (replacePayload width
        (((encPieces width 0 0 (streamGroups b width group_size)).getD G []).getD r2 [])
        garb2))).length := by
    rw [length_modifyAt]
    exact hGp
  have hmodgetD : (modifyAt (encPieces width 0 0 (streamGroups b width group_size)) G
      (fun p => p.set r2 (replacePayload width
        (((encPieces width 0 0 (streamGroups b width group_size)).getD G []).getD r2 [])
        garb2))).getD G []
      = ((encPieces width 0 0 (streamGroups b width group_size)).getD G []).set r2
          (replacePayload width
            (((encPieces width 0 0 (streamGroups b width group_size)).getD G []).getD r2 [])
            garb2) :=
    getD_modifyAt_self [] _ G _ hGp
  have hgetline1 : ((modifyAt (encPieces width 0 0 (streamGroups b width group_size)) G
      (fun p => p.set r2 (replacePayload width
        (((encPieces width 0 0 (streamGroups b width group_size)).getD G []).getD r2 [])
        garb2))).flatten).getD (G * (group_size + 1) + r1) []
      = ((encPieces width 0 0 (streamGroups b width group_size)).getD G []).getD r1 [] := by
    rw [getD_flatten (group_size + 1) [] _ G r1 hcbp2
      (by rw [hmodgetD, List.length_set]; exact hr_piece1) hGp2]
    rw [hmodgetD]
    exact getD_set_ne [] _ r2 r1 _ (by omega)
  rw [hgetline1]
  have hsetline1 : ((modifyAt (encPieces width 0 0 (streamGroups b width group_size)) G
      (fun p => p.set r2 (replacePayload width
        (((encPieces width 0 0 (streamGroups b width group_size)).getD G []).getD r2 [])
        garb2))).flatten).set (G * (group_size + 1) + r1)
        (replacePayload width
          (((encPieces width 0 0 (streamGroups b width group_size)).getD G []).getD r1 []) garb1)
      = (modifyAt (encPieces width 0 0 (streamGroups b width group_size)) G
          (fun p => (p.set r2 (replacePayload width
              (((encPieces width 0 0 (streamGroups b width group_size)).getD G []).getD r2 [])
              garb2)).set r1
            (replacePayload width
              (((encPieces width 0 0 (streamGroups b width group_size)).getD G []).getD r1 [])
              garb1))).flatten := by
    rw [flatten_set (group_size + 1) _ G r1 _ hcbp2
      (by rw [hmodgetD, List.length_set]; exact hr_piece1) hGp2]
    rw [modifyAt_modifyAt]
  rw [hsetline1]
  unfold decode
  rw [chunkList_of_chunkedBy (group_size + 1) (by omega) _
    (chunkedBy_modifyAt (group_size + 1) _ G _ hcbp
      (fun c => by rw [List.length_set, List.length_set]))]
  have htk : ((streamGroups b width group_size).take G).flatten.length = G * group_size :=
    take_flatten_length_full group_size _ G hcb hG
  have hgrpmem : (streamGroups b width group_size).getD G [] ∈ streamGroups b width group_size :=
    getD_mem [] _ G hG
  have hdec : decodeGroup width (0 + G)
      (0 + ((streamGroups b width group_size).take G).flatten.length)
      ((fun p => (p.set r2 (replacePayload width
          (((encPieces width 0 0 (streamGroups b width group_size)).getD G []).getD r2 [])
          garb2)).set r1
        (replacePayload width
          (((encPieces width 0 0 (streamGroups b width group_size)).getD G []).getD r1 [])
          garb1))
        (encGroup width (0 + G)
          (0 + ((streamGroups b width group_size).take G).flatten.length)
          ((streamGroups b width group_size).getD G [])))
      = .error (.CorruptionError G) := by
    rw [Nat.zero_add, Nat.zero_add, htk, hpieceG]
    exact decodeGroup_two_bad width G (G * group_size) _ r1 r2 garb1 garb2
      (encode_side_conditions b width group_size hw hg _ hgrpmem)
      hr12 hr2 hglen1 hglen2 hcrc1 hcrc2
  have hfinal := decodeGroups_mod_err width (streamGroups b width group_size) 0 0 G
    (DecErr.CorruptionError G)
    (fun p => (p.set r2 (replacePayload width
        (((encPieces width 0 0 (streamGroups b width group_size)).getD G []).getD r2 [])
        garb2)).set r1
      (replacePayload width
        (((encPieces width 0 0 (streamGroups b width group_size)).getD G []).getD r1 [])
        garb1))
    (encode_side_conditions b width group_size hw hg) hG hdec
  rw [hfinal]

end FEC

namespace FEC

/-- C2 (counterexample): at width 2 (any width that is not a multiple of
eight, including the spec's default 60, misaligns chunks the same way),
corrupting exactly one data line's payload of the stream for the input
`[255, 255]` with garbage whose checksum no longer matches makes decode
return `[255, 63]` instead of the original bytes: the claim as stated is
false. -/
theorem C2_counterexample :
    crcOfChars (trimRight ['A', 'A'])
      ≠ crcOfChars (((streamGroups [255, 255] 2 10).getD 0 []).getD 0 []) ∧
    (['A', 'A'] : List Char).length = 2 ∧
    decode (corruptAt 2 (encode [255, 255] 2 10) (0 * (10 + 1) + 0) ['A', 'A']) 2 10
      = DRes.ok [255, 63] ∧
    DRes.ok ([255, 63] : List Nat) ≠ DRes.ok [255, 255] := by
  refine ⟨by decide, by decide, by decide, by decide⟩

/-- Witness for C1 at a concrete input. -/
theorem C1_round_trip_witness :
    (0 < 60 ∧ 0 < 10 ∧ ∀ x ∈ [72, 69, 76, 76, 79], x < 256) ∧
    decode (encode [72, 69, 76, 76, 79] 60 10) 60 10 = DRes.ok [72, 69, 76, 76, 79] :=
  ⟨⟨by decide, by decide, by decide⟩,
    C1_round_trip [72, 69, 76, 76, 79] 60 10 (by decide) (by decide) (by decide)⟩

set_option maxRecDepth 100000 in
/-- Witness for the amended C2 at a concrete input. -/
theorem C2_single_line_recovery_amended_witness :
    (0 < 8 ∧ 0 < 2 ∧ (8 : Nat) ∣ 8 ∧ (∀ x ∈ [1, 2, 3, 4, 5], x < 256) ∧
      0 < (streamGroups [1, 2, 3, 4, 5] 8 2).length ∧
      0 < ((streamGroups [1, 2, 3, 4, 5] 8 2).getD 0 []).length ∧
      (((streamGroups [1, 2, 3, 4, 5] 8 2).getD 0 []).getD 0 []).length = 8 ∧
      (['A', 'A', 'A', 'A', 'A', 'A', 'A', 'A'] : List Char).length = 8 ∧
      crcOfChars (trimRight ['A', 'A', 'A', 'A', 'A', 'A', 'A', 'A'])
        ≠ crcOfChars (((streamGroups [1, 2, 3, 4, 5] 8 2).getD 0 []).getD 0 [])) ∧
    decode (corruptAt 8 (encode [1, 2, 3, 4, 5] 8 2) (0 * (2 + 1) + 0)
      ['A', 'A', 'A', 'A', 'A', 'A', 'A', 'A']) 8 2 = DRes.ok [1, 2, 3, 4, 5] :=
  ⟨⟨by decide, by decide, by decide, by decide, by decide, by decide, by decide,
    by decide, by decide⟩,
    C2_single_line_recovery_amended [1, 2, 3, 4, 5] 8 2 (by decide) (by decide) (by decide)
      (by decide) 0 0 ['A', 'A', 'A', 'A', 'A', 'A', 'A', 'A'] (by decide) (by decide)
      (by decide) (by decide) (by decide)⟩

set_option maxRecDepth 100000 in
/-- Witness for C3 at a concrete input. -/
theorem C3_double_corruption_witness :
    (0 < 8 ∧ 0 < 2 ∧
      0 < (streamGroups [1, 2, 3, 4, 5, 6, 7, 8, 9, 10] 8 2).length ∧
      (0 : Nat) < 1 ∧
      1 < ((streamGroups [1, 2, 3, 4, 5, 6, 7, 8, 9, 10] 8 2).getD 0 []).length ∧
      (['A', 'A', 'A', 'A', 'A', 'A', 'A', 'A'] : List Char).length = 8 ∧
      (['B', 'B', 'B', 'B', 'B', 'B', 'B', 'B'] : List Char).length = 8 ∧
      crcOfChars (trimRight ['A', 'A', 'A', 'A', 'A', 'A', 'A', 'A'])
        ≠ crcOfChars (((streamGroups [1, 2, 3, 4, 5, 6, 7, 8, 9, 10] 8 2).getD 0 []).getD 0 []) ∧
      crcOfChars (trimRight ['B', 'B', 'B', 'B', 'B', 'B', 'B', 'B'])
        ≠ crcOfChars (((streamGroups [1, 2, 3, 4, 5, 6, 7, 8, 9, 10] 8 2).getD 0 []).getD 1 [])) ∧
    decode (corruptAt 8 (corruptAt 8 (encode [1, 2, 3, 4, 5, 6, 7, 8, 9, 10] 8 2)
        (0 * (2 + 1) + 1) ['B', 'B', 'B', 'B', 'B', 'B', 'B', 'B'])
        (0 * (2 + 1) + 0) ['A', 'A', 'A', 'A', 'A', 'A', 'A', 'A']) 8 2
      = DRes.error (DecErr.CorruptionError 0) :=
  ⟨⟨by decide, by decide, by decide, by decide, by decide, by decide, by decide,
    by decide, by decide⟩,
    C3_double_corruption [1, 2, 3, 4, 5, 6, 7, 8, 9, 10] 8 2 (by decide) (by decide)
      0 0 1 ['A', 'A', 'A', 'A', 'A', 'A', 'A', 'A'] ['B', 'B', 'B', 'B', 'B', 'B', 'B', 'B']
      (by decide) (by decide) (by decide) (by decide) (by decide) (by decide) (by decide)⟩

/-- Witness for C4 at a concrete input. -/
theorem C4_parity_invariant_witness :
    (0 < 60 ∧ 0 < 10 ∧ (∀ x ∈ [72, 69, 76, 76, 79], x < 256) ∧
      (streamGroups [72, 69, 76, 76, 79] 60 10).getD 0 []
        ∈ streamGroups [72, 69, 76, 76, 79] 60 10) ∧
    (b32decodeChars (parityChunk ((streamGroups [72, 69, 76, 76, 79] 60 10).getD 0 []))
      = xorAll (((streamGroups [72, 69, 76, 76, 79] 60 10).getD 0 []).map b32decodeChars) ∧
    (((streamGroups [72, 69, 76, 76, 79] 60 10).getD 0 []).map b32decodeChars).foldl
        (fun acc d => xorBytes acc d)
        (b32decodeChars (parityChunk ((streamGroups [72, 69, 76, 76, 79] 60 10).getD 0 [])))
      = List.replicate ((((streamGroups [72, 69, 76, 76, 79] 60 10).getD 0 []).map
          b32decodeChars).foldr (fun d m => max d.length m) 0) 0) :=
  ⟨⟨by decide, by decide, by decide, by decide⟩,
    C4_parity_invariant [72, 69, 76, 76, 79] 60 10 (by decide) (by decide) (by decide)
      _ (by decide)⟩

/-- Witness for C6 at a concrete input. -/
theorem C6_data_line_format_witness :
    (0 < 60 ∧ 0 < 10 ∧ 0 < (streamChunks [72, 69, 76, 76, 79] 60).length ∧
      (0 : Nat) + 1 < 1000000) ∧
    ((encode [72, 69, 76, 76, 79] 60 10).getD (0 + 0 / 10) [] =
      pad6 (0 + 1) ++ ' ' ::
        ((streamChunks [72, 69, 76, 76, 79] 60).getD 0 [] ++
          List.replicate (60 - ((streamChunks [72, 69, 76, 76, 79] 60).getD 0 []).length) ' ' ++
          ' ' :: toHex8 (crcOfChars ((streamChunks [72, 69, 76, 76, 79] 60).getD 0 []))) ∧
    (pad6 (0 + 1)).length = 6 ∧
    (∀ d ∈ pad6 (0 + 1), d.isDigit = true) ∧
    interpDigits (pad6 (0 + 1)) = 0 + 1 ∧
    (toHex8 (crcOfChars ((streamChunks [72, 69, 76, 76, 79] 60).getD 0 []))).length = 8 ∧
    (∀ d ∈ toHex8 (crcOfChars ((streamChunks [72, 69, 76, 76, 79] 60).getD 0 [])),
      isLowerHex d = true) ∧
    interpHex (toHex8 (crcOfChars ((streamChunks [72, 69, 76, 76, 79] 60).getD 0 []))) =
      crcOfChars ((streamChunks [72, 69, 76, 76, 79] 60).getD 0 [])) :=
  ⟨⟨by decide, by decide, by decide, by decide⟩,
    C6_data_line_format [72, 69, 76, 76, 79] 60 10 (by decide) (by decide) 0
      (by decide) (by decide)⟩

/-- Witness for C7 at a concrete input. -/
theorem C7_output_ordering_witness :
    (0 < 60 ∧ 0 < 10) ∧
    ((∀ G, G < (streamGroups [72, 69, 76, 76, 79] 60 10).length →
      (chunkList (10 + 1) (encode [72, 69, 76, 76, 79] 60 10)).getD G [] =
        dataLines 60 (G * 10) ((streamGroups [72, 69, 76, 76, 79] 60 10).getD G []) ++
          [mkParityLine 60 G ((streamGroups [72, 69, 76, 76, 79] 60 10).getD G [])]) ∧
    (chunkList (10 + 1) (encode [72, 69, 76, 76, 79] 60 10)).length =
      (streamGroups [72, 69, 76, 76, 79] 60 10).length ∧
    (∀ G, G < (streamGroups [72, 69, 76, 76, 79] 60 10).length →
      0 < ((streamGroups [72, 69, 76, 76, 79] 60 10).getD G []).length ∧
      ((streamGroups [72, 69, 76, 76, 79] 60 10).getD G []).length ≤ 10 ∧
      (G + 1 < (streamGroups [72, 69, 76, 76, 79] 60 10).length →
        ((streamGroups [72, 69, 76, 76, 79] 60 10).getD G []).length = 10))) :=
  ⟨⟨by decide, by decide⟩,
    C7_output_ordering [72, 69, 76, 76, 79] 60 10 (by decide) (by decide)⟩

end FEC

namespace DirSize

/-- Inserting into a size-descending list puts the new element first or
keeps the old head. -/
theorem insertDesc_head_cases (x : List Char × Nat) (l : List (List Char × Nat)) :
    (insertDesc x l).head? = some x ∨ (insertDesc x l).head? = l.head? := by
  cases l with
  | nil => left; rfl
  | cons y ys =>
    rw [insertDesc]
    split
    · left; rfl
    · right; rfl

/-- `insertDesc` preserves the size-descending chain. -/
theorem chain_insertDesc (x : List Char × Nat) (l : List (List Char × Nat))
    (h : List.Chain' (fun p q => q.2 ≤ p.2) l) :
    List.Chain' (fun p q => q.2 ≤ p.2) (insertDesc x l) := by
  induction l with
  | nil => simp [insertDesc]
  | cons y ys ih =>
    rw [List.chain'_cons'] at h
    obtain ⟨hhead, htail⟩ := h
    rw [insertDesc]
    split
    next hc =>
      rw [List.chain'_cons]
      exact ⟨by omega, List.chain'_cons'.mpr ⟨hhead, htail⟩⟩
    next hc =>
      rw [List.chain'_cons']
      refine ⟨?_, ih htail⟩
      intro z hz
      rcases insertDesc_head_cases x ys with hh | hh
      · rw [hh] at hz
        simp only [Option.mem_def, Option.some.injEq] at hz
        subst hz
        omega
      · rw [hh] at hz
        exact hhead z hz

/-- The insertion sort of `analyze_directories` produces a size-descending
chain on every input. -/
theorem chain_sortBySizeDesc (l : List (List Char × Nat)) :
    List.Chain' (fun p q => q.2 ≤ p.2) (sortBySizeDesc l) := by
  induction l with
  | nil => simp [sortBySizeDesc]
  | cons a l ih => exact chain_insertDesc a _ ih

/-- C8: for every starting path and directory tree, the list returned by
`analyze_directories` is sorted in non-increasing order of the size
component: every adjacent pair `(p1, s1), (p2, s2)` satisfies `s2 ≤ s1`. -/
theorem C8_sorted_descending (start_path : List Char) (t : FSTree) :
    List.Chain' (fun p q => q.2 ≤ p.2) (analyze_directories start_path t) :=
  chain_sortBySizeDesc _

end DirSize

namespace TempCopy

/-- C9: when the source path does not exist or is not a directory,
`copy_directory_with_exclusions` returns `False` having performed no
filesystem action: no directory creation and no copy command. -/
theorem C9_error_branch_no_actions (fs : FileSystem) (source_dir dest_dir : List Char)
    (exclude_dirs : List (List Char)) (use_rsync : Bool)
    (h : fs.pathExists source_dir = false ∨ fs.pathIsDir source_dir = false) :
    copy_directory_with_exclusions fs source_dir dest_dir exclude_dirs use_rsync
      = (false, []) := by
  rcases h with h | h
  · rw [copy_directory_with_exclusions, if_pos h]
  · rw [copy_directory_with_exclusions]
    by_cases he : fs.pathExists source_dir = false
    · rw [if_pos he]
    · rw [if_neg he, if_pos h]

/-- Witness for C9 at a concrete input. -/
theorem C9_error_branch_no_actions_witness :
    ((FileSystem.mk (fun _ => false) (fun _ => false) true true true).pathExists
        ['s'] = false ∨
      (FileSystem.mk (fun _ => false) (fun _ => false) true true true).pathIsDir
        ['s'] = false) ∧
    copy_directory_with_exclusions
      (FileSystem.mk (fun _ => false) (fun _ => false) true true true)
      ['s'] ['d'] [['x']] true = (false, []) :=
  ⟨Or.inl rfl,
    C9_error_branch_no_actions (FileSystem.mk (fun _ => false) (fun _ => false) true true true)
      ['s'] ['d'] [['x']] true (Or.inl rfl)⟩

/-- The splitter never puts a slash inside a component. -/
theorem splitOnSlashAux_no_slash (l acc : List Char) (hacc : ∀ c ∈ acc, c ≠ '/') :
    ∀ s ∈ splitOnSlashAux acc l, ∀ c ∈ s, c ≠ '/' := by
  induction l generalizing acc with
  | nil =>
    intro s hs c hc
    rw [splitOnSlashAux, List.mem_singleton] at hs
    subst hs
    exact hacc c (List.mem_reverse.mp hc)
  | cons d rest ih =>
    intro s hs c hc
    rw [splitOnSlashAux] at hs
    split at hs
    · rcases List.mem_cons.mp hs with hs | hs
      · subst hs
        exact hacc c (List.mem_reverse.mp hc)
      · exact ih [] (by intro c hc; cases hc) s hs c hc
    next hd =>
      refine ih (d :: acc) ?_ s hs c hc
      intro c hc
      rcases List.mem_cons.mp hc with hc | hc
      · subst hc; exact hd
      · exact hacc c hc

/-- Path components coming out of `splitSegs` are nonempty. -/
theorem mem_splitSegs_ne_nil (l : List Char) : ∀ s ∈ splitSegs l, s ≠ [] := by
  intro s hs
  have := List.of_mem_filter hs
  intro hnil
  subst hnil
  simp at this

/-- Path components coming out of `splitSegs` contain no slash. -/
theorem mem_splitSegs_no_slash (l : List Char) :
    ∀ s ∈ splitSegs l, ∀ c ∈ s, c ≠ '/' := by
  intro s hs
  exact splitOnSlashAux_no_slash l [] (by intro c hc; cases hc) s
    (List.mem_of_mem_filter hs)

/-- Joining a component list whose head is nonempty and slash-free yields a
nonempty, non-absolute path. -/
theorem intercalSlash_not_abs (s : List Char) (rest : List (List Char))
    (hs : s ≠ []) (hhead : ∀ c ∈ s, c ≠ '/') :
    intercalSlash (s :: rest) ≠ [] ∧ isabs (intercalSlash (s :: rest)) = false := by
  cases s with
  | nil => exact absurd rfl hs
  | cons c cs =>
    have hc : (c == '/') = false := by
      have := hhead c (List.mem_cons_self c cs)
      simp [this]
    cases rest with
    | nil =>
      exact ⟨by simp [intercalSlash], by rw [intercalSlash]; rw [isabs]; exact hc⟩
    | cons r rest2 =>
      constructor
      · show (c :: cs) ++ '/' :: intercalSlash (r :: rest2) ≠ []
        simp
      · show isabs ((c :: cs) ++ '/' :: intercalSlash (r :: rest2)) = false
        rw [List.cons_append, isabs]
        exact hc

/-- `relpath` always returns a nonempty relative path. -/
theorem relpath_ne_nil_not_abs (path start : List Char) :
    relpath path start ≠ [] ∧ isabs (relpath path start) = false := by
  rw [relpath]
  split
  · exact ⟨by simp, rfl⟩
  next hne =>
    set parts := List.replicate ((splitSegs start).length
        - commonLen (splitSegs path) (splitSegs start)) ['.', '.']
      ++ (splitSegs path).drop (commonLen (splitSegs path) (splitSegs start)) with hparts
    cases hp : parts with
    | nil => rw [hp] at hne; simp at hne
    | cons h t =>
      have hmem : h ∈ parts := by rw [hp]; exact List.mem_cons_self h t
      rw [hparts] at hmem
      have hfacts : h ≠ [] ∧ ∀ c ∈ h, c ≠ '/' := by
        rcases List.mem_append.mp hmem with hm | hm
        · have := List.eq_of_mem_replicate hm
          subst this
          exact ⟨by simp, by decide⟩
        · have hm2 := List.mem_of_mem_drop hm
          exact ⟨mem_splitSegs_ne_nil path h hm2, mem_splitSegs_no_slash path h hm2⟩
      exact intercalSlash_not_abs h t hfacts.1 hfacts.2

/-- C10: every element of the processed exclude list is a nonempty,
non-absolute path: blank entries are dropped, absolute entries are either
relativized inside the source directory or dropped, relative entries are
kept stripped. -/
theorem C10_exclude_list_relative (exclude_dirs : List (List Char))
    (source_dir : List Char) :
    ∀ e ∈ _process_exclude_list exclude_dirs source_dir,
      e ≠ [] ∧ isabs e = false := by
  induction exclude_dirs with
  | nil => intro e he; rw [_process_exclude_list] at he; cases he
  | cons x rest ih =>
    intro e he
    rw [_process_exclude_list] at he
    split at he
    · exact ih e he
    next h1 =>
      split at he
      · split at he
        · exact ih e he
        · rcases List.mem_cons.mp he with he | he
          · subst he
            exact relpath_ne_nil_not_abs (pstrip x) source_dir
          · exact ih e he
      next h2 =>
        rcases List.mem_cons.mp he with he | he
        · subst he
          refine ⟨?_, ?_⟩
          · intro hnil
            exact h1 (by rw [hnil]; rfl)
          · simp only [Bool.not_eq_true] at h2
            exact h2
        · exact ih e he

/-- Witness for C10 at a concrete input. -/
theorem C10_exclude_list_relative_witness :
    (['b'] ∈ _process_exclude_list [[' '], ['/', 'a', '/', 'b'], ['c']] ['/', 'a']) ∧
    (['b'] ≠ ([] : List Char) ∧ isabs ['b'] = false) :=
  ⟨by decide,
    C10_exclude_list_relative [[' '], ['/', 'a', '/', 'b'], ['c']] ['/', 'a']
      ['b'] (by decide)⟩

end TempCopy
